import Mathlib

/-!
Verification development for the hardware-store lead scraper
(`Scrapper_PreprocessingTool.py`, class `HardwareStoreLeadScraper`).

Text is modelled as `List Char`.  Python's `re` module is modelled by a
small regular-expression engine (`Rgx`, `matchRes`, `pyFindall`): `matchRes`
enumerates, in Python's backtracking preference order (alternation
left-to-right, greedy repetition), the lengths of the matches of a regex
against a prefix of the input together with the text captured by the (single)
capture group, and Python's `re.findall` is the scan that repeatedly takes
the first (preferred) match and restarts after it.  All pattern tables of
`_init_hardware_patterns`, `_extract_budget_indicators` and
`_extract_additional_context` are transcribed as `Rgx` values.  The scraper's
pattern tables are applied to lower-cased content, so the `re.IGNORECASE`
flag is modelled by lower-casing the subject text (`List.map Char.toLower`
models `str.lower`) and writing the (all lower-case) pattern literals as
they appear in the source.

External collaborators (the HTTP session of `requests`, BeautifulSoup's
parsed documents, `urljoin`) are modelled as oracle parameters: a fetch
function returning a `PageResult`, a list of anchor `Link`s standing for
`soup.find_all('a', href=True)`, and an arbitrary `urljoin` function.
-/

/-! ### Character classes used by the Python code -/

/-- Python's `\s` class (ASCII part): space, tab, newline, carriage return,
vertical tab, form feed.  Also the set stripped by `str.strip()`. -/
def isPySpace (c : Char) : Bool :=
  c == ' ' || c == '\t' || c == '\n' || c == '\r' || c == '\x0b' || c == '\x0c'

/-- Python's `\w` class (ASCII part): alphanumerics and underscore. -/
def isWordChar (c : Char) : Bool :=
  c.isAlphanum || c == '_'

/-- The characters removed by `.rstrip('.,!?:;')` in `_extract_pattern_matches`
and `_extract_additional_context`. -/
def isTrailPunct (c : Char) : Bool :=
  c == '.' || c == ',' || c == '!' || c == '?' || c == ':' || c == ';'

/-- Shorthand: the character list of a string literal. -/
def cs (s : String) : List Char := s.toList

/-! ### A small regex engine modelling Python `re` -/

/-- Regular expressions, as used by the scraper's pattern tables.
`grp` marks the (unique) capturing group of a pattern; all other groups in
the source are non-capturing `(?:...)` and are represented by the bare
sub-expression. -/
inductive Rgx where
  | eps : Rgx
  | lit : Char → Rgx
  | cls : (Char → Bool) → Rgx
  | grp : Rgx → Rgx
  | alt : Rgx → Rgx → Rgx
  | cat : Rgx → Rgx → Rgx
  | star : Rgx → Rgx

/-- Number of constructors of a regex; used to size the fuel of `matchRes`. -/
def Rgx.size : Rgx → Nat
  | .eps => 1
  | .lit _ => 1
  | .cls _ => 1
  | .grp r => r.size + 1
  | .alt r₁ r₂ => r₁.size + r₂.size + 1
  | .cat r₁ r₂ => r₁.size + r₂.size + 1
  | .star r => r.size + 1

/-- A regex with no capturing group (every pattern of the eight
`_extract_pattern_matches` categories). -/
def Rgx.noGrp : Rgx → Bool
  | .eps => true
  | .lit _ => true
  | .cls _ => true
  | .grp _ => false
  | .alt r₁ r₂ => r₁.noGrp && r₂.noGrp
  | .cat r₁ r₂ => r₁.noGrp && r₂.noGrp
  | .star r => r.noGrp

/-- A lower bound on the length of any match of a regex. -/
def Rgx.minLen : Rgx → Nat
  | .eps => 0
  | .lit _ => 1
  | .cls _ => 1
  | .grp r => r.minLen
  | .alt r₁ r₂ => min r₁.minLen r₂.minLen
  | .cat r₁ r₂ => r₁.minLen + r₂.minLen
  | .star _ => 0

/-- Combining the captures of two concatenated sub-matches: the patterns of
the source have at most one group, so at most one side is `some`. -/
def combineCap : Option (List Char) → Option (List Char) → Option (List Char)
  | some c, _ => some c
  | none, c₂ => c₂

/-- All matches of `r` against a prefix of `s`, as pairs
(match length, capture of the group, if any), listed in Python's
backtracking preference order: alternatives left to right, repetition
greedy (more/longer first, the empty repetition last).  The head of the
list is the match Python's `re` engine reports.  `fuel` bounds the
recursion depth; every derivation has depth at most
`(s.length + 1) * (r.size + 1)`, the fuel `pyFindall` supplies. -/
def matchRes : Nat → Rgx → List Char → List (Nat × Option (List Char))
  | 0, _, _ => []
  | fuel + 1, r, s =>
    match r with
    | .eps => [(0, none)]
    | .lit c =>
      match s with
      | [] => []
      | a :: _ => if a = c then [(1, none)] else []
    | .cls p =>
      match s with
      | [] => []
      | a :: _ => if p a then [(1, none)] else []
    | .grp r₁ => (matchRes fuel r₁ s).map (fun x => (x.1, some (s.take x.1)))
    | .alt r₁ r₂ => matchRes fuel r₁ s ++ matchRes fuel r₂ s
    | .cat r₁ r₂ =>
      (matchRes fuel r₁ s).flatMap (fun x =>
        (matchRes fuel r₂ (s.drop x.1)).map (fun y => (x.1 + y.1, combineCap x.2 y.2)))
    | .star r₁ =>
      (((matchRes fuel r₁ s).filter (fun x => decide (0 < x.1))).flatMap (fun x =>
        (matchRes fuel (.star r₁) (s.drop x.1)).map
          (fun y => (x.1 + y.1, combineCap x.2 y.2)))) ++ [(0, none)]

/-- Fuel sufficient for every match derivation of `r` against `s`. -/
def rgxFuel (r : Rgx) (s : List Char) : Nat :=
  (s.length + 1) * (r.size + 1)

/-- One scan step list of `re.findall`: at each position take the preferred
match if any (reporting the group capture when the pattern has a group,
otherwise the whole match, as `re.findall` does), then resume after it
(advancing at least one character), otherwise slide one character. -/
def pyFindallAux (r : Rgx) : Nat → List Char → List (List Char)
  | 0, _ => []
  | fuel + 1, s =>
    match (matchRes (rgxFuel r s) r s).head? with
    | none =>
      match s with
      | [] => []
      | _ :: rest => pyFindallAux r fuel rest
    | some lc =>
      (lc.2.getD (s.take lc.1)) ::
        match s with
        | [] => []
        | _ :: _ => pyFindallAux r fuel (s.drop (max lc.1 1))

/-- Model of `re.findall(pattern, content)` as used by the scraper. -/
def pyFindall (r : Rgx) (s : List Char) : List (List Char) :=
  pyFindallAux r (s.length + 1) s

/-! ### Regex construction helpers (transcription combinators) -/

/-- A literal string, e.g. the regex `budget of `. -/
def strRgx (w : List Char) : Rgx :=
  w.foldr (fun c r => .cat (.lit c) r) .eps

/-- Ordered alternation `a|b|...` (left preferred, as in Python). -/
def altL : List Rgx → Rgx
  | [] => .eps
  | [r] => r
  | r :: rest => .alt r (altL rest)

/-- Greedy option `r?` (present preferred). -/
def optR (r : Rgx) : Rgx := .alt r .eps

/-- Greedy `r+`. -/
def plusR (r : Rgx) : Rgx := .cat r (.star r)

/-- A word from the pattern tables with an optional trailing `s`,
e.g. `needs?`. -/
def wordS (w : String) : Rgx := .cat (strRgx (cs w)) (optR (.lit 's'))

/-- A plain word alternative. -/
def word (w : String) : Rgx := strRgx (cs w)

/-- `\w` -/
def wRe : Rgx := .cls isWordChar
/-- `\d` -/
def dRe : Rgx := .cls Char.isDigit
/-- `\s` -/
def sRe : Rgx := .cls isPySpace

/-- Exactly `n` copies of `r` (for counted repetition). -/
def repExact (r : Rgx) : Nat → Rgx
  | 0 => .eps
  | n + 1 => .cat r (repExact r n)

/-- At most `n` copies of `r`, greedy. -/
def repUpTo (r : Rgx) : Nat → Rgx
  | 0 => .eps
  | n + 1 => .alt (.cat r (repUpTo r n)) .eps

/-- Counted repetition `r{lo,hi}`, greedy, as in `[^.]{10,80}`. -/
def repRange (r : Rgx) (lo hi : Nat) : Rgx :=
  .cat (repExact r lo) (repUpTo r (hi - lo))

/-- Concatenation of a sequence of regex pieces. -/
def catL : List Rgx → Rgx
  | [] => .eps
  | [r] => r
  | r :: rest => .cat r (catL rest)

/-! ### The pattern tables of `_init_hardware_patterns`, transcribed -/

/-- `self.infrastructure_patterns` -/
def infrastructure_patterns : List Rgx :=
  [ catL [altL [word "server", word "hosting", word "infrastructure", word "cloud",
                word "on-premise", word "data center", word "hardware"], .lit ' ',
          altL [wordS "need", wordS "requirement", wordS "challenge", wordS "issue",
                wordS "problem", wordS "upgrade", word "migration"]],
    catL [altL [word "looking for", word "need", word "require", word "seeking"], .lit ' ',
          optR (word "new "),
          altL [wordS "server", wordS "workstation", word "networking", word "storage",
                word "backup"]],
    catL [altL [word "performance", word "speed", word "capacity", word "storage",
                word "memory", word "processing"], .lit ' ',
          altL [wordS "issue", wordS "problem", wordS "bottleneck", wordS "limitation"]],
    catL [altL [word "scaling", word "expanding", word "growing"], .lit ' ',
          altL [word "infrastructure", wordS "system", wordS "operation", word "team"]],
    catL [altL [word "outdated", word "legacy", word "old", word "aging"], .lit ' ',
          altL [wordS "system", word "hardware", word "equipment", word "infrastructure"]] ]

/-- The first growth pattern,
`(?:hiring|recruiting|adding|expanding) (?:\w+ )?(?:team|developers?|engineers?|staff)`. -/
def growth_pat1 : Rgx :=
  catL [altL [word "hiring", word "recruiting", word "adding", word "expanding"], .lit ' ',
        optR (.cat (plusR wRe) (.lit ' ')),
        altL [word "team", wordS "developer", wordS "engineer", word "staff"]]

/-- `self.growth_patterns` -/
def growth_patterns : List Rgx :=
  [ growth_pat1,
    altL [word "new office", word "additional location", word "expanding to",
          word "opening in"],
    altL [word "raised", word "funding", word "investment",
          .cat (word "series ") (.cls (fun c => c == 'a' || c == 'b' || c == 'c')),
          word "venture capital"],
    catL [altL [word "growing", word "scaling", word "expanding"], .lit ' ',
          altL [word "rapidly", word "quickly", word "fast", word "business",
                word "operations"]],
    catL [altL [word "remote work", word "hybrid", word "distributed team",
                word "work from home"], .lit ' ',
          altL [word "setup", word "infrastructure", word "needs"]],
    catL [plusR dRe, .lit '%', .lit ' ', altL [word "growth", word "increase"],
          word " in ", altL [word "team", word "revenue", word "business"]] ]

/-- `self.pain_point_patterns` -/
def pain_point_patterns : List Rgx :=
  [ catL [altL [word "slow", word "sluggish", word "performance", word "speed"], .lit ' ',
          altL [wordS "system", wordS "application", wordS "processe", wordS "workflow"]],
    catL [altL [word "security", word "compliance", word "data protection", word "backup",
                word "disaster recovery"], .lit ' ',
          altL [wordS "concern", wordS "issue", wordS "requirement", wordS "need"]],
    altL [word "downtime", wordS "outage", wordS "system failure", wordS "crashe",
          wordS "reliability issue"],
    catL [altL [word "integration", word "compatibility", word "connectivity"], .lit ' ',
          altL [wordS "problem", wordS "challenge", wordS "issue"]],
    catL [altL [word "budget", word "cost", word "expensive", word "affordable"], .lit ' ',
          altL [wordS "constraint", wordS "concern", wordS "solution", word "hardware"]],
    altL [wordS "manual processe", word "inefficient", word "time-consuming",
          wordS "repetitive task"] ]

/-- `self.decision_maker_patterns` -/
def decision_maker_patterns : List Rgx :=
  [ altL [word "cto", word "chief technology officer", word "it director",
          word "it manager", word "head of it", word "technical lead"],
    altL [catL [word "operation", optR (.lit 's'), word " manager"],
          .cat (word "head of operation") (optR (.lit 's')),
          word "ops lead"],
    altL [word "procurement", word "purchasing", word "buying", word "vendor management"],
    altL [word "budget approval", wordS "purchasing decision", word "it spending",
          wordS "technology investment"] ]

/-- `self.tech_infrastructure_patterns` -/
def tech_infrastructure_patterns : List Rgx :=
  [ altL [word "aws", word "amazon web services", word "azure", word "google cloud",
          word "gcp", word "digital ocean", word "linode"],
    altL [word "cloud", word "hosting", word "saas", word "paas", word "iaas",
          word "hybrid cloud", word "multi-cloud"],
    altL [word "docker", word "kubernetes", wordS "container", word "microservices"],
    altL [word "ci/cd", word "continuous integration", word "devops", word "automation"],
    altL [word "mysql", word "postgresql", word "mongodb", word "redis",
          word "elasticsearch", word "database"],
    altL [word "storage", word "backup", word "disaster recovery", word "data management"],
    altL [word "python", word "javascript", word "react",
          catL [word "node", optR (.lit '.'), word "js"],
          word "angular", word "vue", word "java", word ".net"],
    altL [word "web development", word "mobile development", word "software development"],
    altL [word "nginx", word "apache", word "load balancer", word "cdn", word "ssl",
          word "security"],
    altL [word "monitoring", word "logging", word "analytics", word "performance tracking"] ]

/-- `self.hardware_needs_patterns` -/
def hardware_needs_patterns : List Rgx :=
  [ catL [altL [wordS "workstation", wordS "desktop", wordS "laptop", wordS "computer"],
          .lit ' ', altL [word "for", word "needed", word "required"]],
    catL [altL [word "high-performance", word "gaming", wordS "graphic"], .lit ' ',
          altL [wordS "computer", wordS "workstation", wordS "rig"]],
    catL [altL [word "development", word "programming", word "coding", word "design"],
          .lit ' ', altL [wordS "machine", wordS "workstation", wordS "setup"]],
    catL [altL [word "video editing", word "3d rendering", word "cad", word "design"],
          .lit ' ', altL [wordS "computer", wordS "workstation"]],
    catL [altL [word "networking", wordS "switche", wordS "router", wordS "access point"],
          .lit ' ', altL [word "equipment", word "hardware", word "setup"]],
    catL [altL [word "storage", word "nas", word "san", word "backup"], .lit ' ',
          altL [wordS "solution", wordS "system", word "hardware"]] ]

/-- The first urgency pattern,
`(?:urgent|asap|immediately|quickly|soon) (?:need|require|looking)`. -/
def urgency_pat1 : Rgx :=
  catL [altL [word "urgent", word "asap", word "immediately", word "quickly", word "soon"],
        .lit ' ', altL [word "need", word "require", word "looking"]]

/-- `self.urgency_patterns` -/
def urgency_patterns : List Rgx :=
  [ urgency_pat1,
    altL [word "deadline", word "timeline",
          .cat (word "by ")
            (altL [word "end of",
                   .cat (.lit 'q')
                     (.cls (fun c => c == '1' || c == '2' || c == '3' || c == '4')),
                   word "january", word "february", word "march", word "april",
                   word "may", word "june", word "july", word "august",
                   word "september", word "october", word "november", word "december"])],
    altL [word "budget allocated", word "approved budget", word "ready to purchase",
          word "ready to buy"],
    altL [word "rfp", word "request for proposal", wordS "quote", wordS "proposal",
          wordS "vendor"],
    catL [altL [word "project starting", word "implementation", word "rollout",
                word "deployment"], .lit ' ',
          altL [word "soon", word "scheduled", word "planned"]] ]

/-- `self.company_scale_patterns` -/
def company_scale_patterns : List Rgx :=
  [ catL [plusR dRe, altL [.lit '+', word "plus"], .lit ' ',
          altL [wordS "employee", wordS "team member", word "staff"]],
    altL [word "startup", word "scale-up", word "growing company",
          word "established company"],
    altL [.cat (word "series ") (.cls (fun c => c == 'a' || c == 'b' || c == 'c')),
          word "funding", word "investment",
          catL [word "revenue of ", optR (.lit '$'), plusR dRe]],
    altL [wordS "multiple office", wordS "location", wordS "branche", wordS "site"],
    altL [word "international", word "global", word "worldwide",
          wordS "multiple countrie"] ]

/-- The decimal-amount group `(\d+(?:,\d+)*(?:\.\d+)?)` of the budget patterns. -/
def numRgx : Rgx :=
  catL [plusR dRe, .star (.cat (.lit ',') (plusR dRe)),
        optR (.cat (.lit '.') (plusR dRe))]

/-- The common tail `(\d+...)\s*(?:million|thousand|k|m)?` of the budget patterns. -/
def budgetTail : Rgx :=
  catL [.grp numRgx, .star sRe,
        optR (altL [word "million", word "thousand", .lit 'k', .lit 'm'])]

/-- `budget_patterns` of `_extract_budget_indicators`. -/
def budget_patterns : List Rgx :=
  [ catL [word "budget of ", optR (.lit '$'), budgetTail],
    catL [word "revenue of ", optR (.lit '$'), budgetTail],
    catL [word "funding of ", optR (.lit '$'), budgetTail],
    catL [word "raised ", optR (.lit '$'), budgetTail],
    catL [altL [word "investment", word "capital", word "funding", word "raised",
                word "budget", word "revenue"],
          plusR sRe, optR (.cat (word "of") (plusR sRe)), optR (.lit '$'), budgetTail] ]

/-- `phrase_patterns` of `_extract_additional_context`. -/
def phrase_patterns : List Rgx :=
  [ catL [word "we ", altL [word "help", word "enable", word "empower", word "support"],
          .lit ' ',
          altL [word "companies", word "businesses", word "organizations", word "clients"],
          .lit ' ', optR (word "to "),
          .grp (repRange (.cls (fun c => !(c == '.'))) 10 80)],
    catL [word "our mission is ", optR (word "to "),
          .grp (repRange (.cls (fun c => !(c == '.'))) 10 80)],
    catL [word "we specialize in ",
          .grp (repRange (.cls (fun c => !(c == '.'))) 10 80)],
    catL [altL [word "focused on", word "committed to", word "dedicated to"], .lit ' ',
          .grp (repRange (.cls (fun c => !(c == '.'))) 10 80)] ]

/-- `industry_keywords` of `_extract_additional_context` (fixed iteration order of
the Python dict literal). -/
def industry_keywords : List (List Char × List (List Char)) :=
  [ (cs "fintech", [cs "financial", cs "banking", cs "payments", cs "fintech",
                    cs "trading"]),
    (cs "healthcare", [cs "healthcare", cs "medical", cs "hospital", cs "patient",
                       cs "clinical"]),
    (cs "ecommerce", [cs "ecommerce", cs "retail", cs "shopping", cs "marketplace",
                      cs "online store"]),
    (cs "saas", [cs "saas", cs "software as a service", cs "subscription",
                 cs "cloud platform"]),
    (cs "startup", [cs "startup", cs "early-stage", cs "seed", cs "series a",
                    cs "founders"]) ]

/-! ### Python string helpers used by the scraper -/

/-- Python's substring test `needle in hay`. -/
def isSubstr (n h : List Char) : Bool :=
  (List.range (h.length + 1)).any (fun i => n.isPrefixOf (h.drop i))

/-- `str.lstrip()` (whitespace from the left). -/
def pyLStrip (s : List Char) : List Char := s.dropWhile isPySpace

/-- `str.rstrip(chars)`: remove the longest trailing run of characters
satisfying `p`. -/
def pyRStripWith (p : Char → Bool) (s : List Char) : List Char :=
  (s.reverse.dropWhile p).reverse

/-- `str.strip()`. -/
def pyStrip (s : List Char) : List Char := pyRStripWith isPySpace (pyLStrip s)

/-- `match.strip().rstrip('.,!?:;')` of `_extract_pattern_matches` and
`_extract_additional_context`. -/
def cleanMatch (m : List Char) : List Char := pyRStripWith isTrailPunct (pyStrip m)

/-! ### `_extract_pattern_matches` -/

/-- The inner `for match in found_matches` loop of `_extract_pattern_matches`:
clean each match, keep it when longer than 5 characters and not already
present, and break out of this pattern's loop once the accumulated list
reaches 5 entries.  (The `isinstance(match, tuple)` branch is dead for these
patterns — none has a capturing group — and `except re.error: continue` never
fires for the valid transcribed patterns.) -/
def processMatches : List (List Char) → List (List Char) → List (List Char)
  | [], acc => acc
  | m :: rest, acc =>
    let cm := cleanMatch m
    if 5 < cm.length ∧ cm ∉ acc then
      let acc' := acc ++ [cm]
      if 5 ≤ acc'.length then acc' else processMatches rest acc'
    else processMatches rest acc

/-- `_extract_pattern_matches(content, patterns, category)`; the `category`
argument is only used for logging in the source. -/
def extract_pattern_matches (content : List Char) (patterns : List Rgx) :
    List (List Char) :=
  (patterns.foldl (fun acc p => processMatches (pyFindall p content) acc) []).take 5

/-! ### `_extract_budget_indicators` -/

/-- `"Financial indicator: $"`, the prefix of every budget-indicator entry. -/
def budgetPrefix : List Char := cs "Financial indicator: $"

/-- The inner `for match in matches` loop of `_extract_budget_indicators`:
append `"Financial indicator: $" + match` unconditionally and break out of
this pattern's loop once the list has at least 3 entries (checked after the
append). -/
def budgetLoop : List (List Char) → List (List Char) → List (List Char)
  | [], acc => acc
  | m :: rest, acc =>
    let acc' := acc ++ [budgetPrefix ++ m]
    if 3 ≤ acc'.length then acc' else budgetLoop rest acc'

/-- `_extract_budget_indicators(content)`.  Note: unlike
`_extract_pattern_matches` there is no membership test and no final
truncation of the accumulated list. -/
def extract_budget_indicators (content : List Char) : List (List Char) :=
  budget_patterns.foldl (fun acc p => budgetLoop (pyFindall p content) acc) []

/-! ### `_extract_additional_context` -/

/-- The inner loop of the business-phrase extraction: keep cleaned phrases
longer than 10 characters; break out of this pattern's loop once 2 phrases
are accumulated (checked after the conditional append). -/
def bizLoop : List (List Char) → List (List Char) → List (List Char)
  | [], acc => acc
  | m :: rest, acc =>
    let cp := cleanMatch m
    let acc' := if 10 < cp.length then acc ++ [cp] else acc
    if 2 ≤ acc'.length then acc' else bizLoop rest acc'

/-- The `business_context` extraction of `_extract_additional_context`. -/
def extractBusinessContext (content : List Char) : List (List Char) :=
  phrase_patterns.foldl (fun acc p => bizLoop (pyFindall p content) acc) []

/-- The `industry_context` extraction of `_extract_additional_context`:
an industry tag is emitted (once) when any of its keywords occurs as a
substring of the content. -/
def extractIndustryContext (content : List Char) : List (List Char) :=
  industry_keywords.foldl
    (fun acc ik => if ik.2.any (fun k => isSubstr k content) then acc ++ [ik.1] else acc)
    []

/-! ### The intelligence profile and `_extract_hardware_intelligence` -/

/-- The `hardware_intelligence` mapping built by `scrape_company_website`,
as a fixed-shape record.  `business_context` and `industry_context` are only
inserted by `_extract_additional_context` (i.e. on the success path); the
`encodeHI` function below reflects which keys are present. -/
structure HardwareIntelligence where
  infrastructure_needs : List (List Char) := []
  growth_indicators : List (List Char) := []
  technical_pain_points : List (List Char) := []
  decision_makers : List (List Char) := []
  tech_stack : List (List Char) := []
  hardware_opportunities : List (List Char) := []
  urgency_signals : List (List Char) := []
  company_scale : List (List Char) := []
  budget_indicators : List (List Char) := []
  business_context : List (List Char) := []
  industry_context : List (List Char) := []
  scraping_success : Bool := false
  scraping_error : Option (List Char) := none
  content_preview : List Char := []
  hardware_readiness_score : Nat := 0

/-- The initial profile of `scrape_company_website` (all lists empty,
`scraping_success=False`, `scraping_error=None`, empty preview, score 0). -/
def emptyHI : HardwareIntelligence := {}

/-- `_extract_hardware_intelligence(company, content)`: lower-case the
content (`content.lower()`), run every pattern category, the budget
extraction and `_extract_additional_context`. -/
def extract_hardware_intelligence (hi : HardwareIntelligence) (content : List Char) :
    HardwareIntelligence :=
  let cl := content.map Char.toLower
  { hi with
    infrastructure_needs := extract_pattern_matches cl infrastructure_patterns
    growth_indicators := extract_pattern_matches cl growth_patterns
    technical_pain_points := extract_pattern_matches cl pain_point_patterns
    decision_makers := extract_pattern_matches cl decision_maker_patterns
    tech_stack := extract_pattern_matches cl tech_infrastructure_patterns
    hardware_opportunities := extract_pattern_matches cl hardware_needs_patterns
    urgency_signals := extract_pattern_matches cl urgency_patterns
    company_scale := extract_pattern_matches cl company_scale_patterns
    budget_indicators := extract_budget_indicators cl
    business_context := extractBusinessContext cl
    industry_context := extractIndustryContext cl }

/-! ### `_calculate_hardware_readiness_score` -/

/-- `_calculate_hardware_readiness_score(company)`: weighted sum of the five
scored categories, each term capped, the total capped at 100.  A category
only contributes when its list is non-empty (`if intelligence[...]:`). -/
def calculate_hardware_readiness_score (hi : HardwareIntelligence) : Nat :=
  let s₁ := if hi.infrastructure_needs.isEmpty then 0
            else min 30 (hi.infrastructure_needs.length * 10)
  let s₂ := s₁ + (if hi.growth_indicators.isEmpty then 0
            else min 25 (hi.growth_indicators.length * 8))
  let s₃ := s₂ + (if hi.technical_pain_points.isEmpty then 0
            else min 20 (hi.technical_pain_points.length * 7))
  let s₄ := s₃ + (if hi.urgency_signals.isEmpty then 0
            else min 15 (hi.urgency_signals.length * 15))
  let s₅ := s₄ + (if hi.budget_indicators.isEmpty then 0
            else min 10 (hi.budget_indicators.length * 10))
  min 100 s₅

/-! ### `_clean_text_enhanced` -/

/-- `re.sub(r'\s+', ' ', text)`: collapse every maximal whitespace run to a
single space (fuel-driven; `clean_text_enhanced` supplies `length + 1`). -/
def collapseWsAux : Nat → List Char → List Char
  | 0, s => s
  | _ + 1, [] => []
  | fuel + 1, c :: rest =>
    if isPySpace c then ' ' :: collapseWsAux fuel (rest.dropWhile isPySpace)
    else c :: collapseWsAux fuel rest

/-- The alternatives of the boilerplate-removal pattern
`(?:cookie|privacy policy|terms of service|subscribe|newsletter)`,
in Python's preference order. -/
def boilerTerms : List (List Char) :=
  [cs "cookie", cs "privacy policy", cs "terms of service", cs "subscribe",
   cs "newsletter"]

/-- The length of the first boilerplate alternative matching at this
position (case-insensitively), if any. -/
def firstBoiler (s : List Char) : Option Nat :=
  (boilerTerms.find? (fun b => b.isPrefixOf (s.map Char.toLower))).map List.length

/-- `re.sub(r'(?:cookie|...|newsletter)', '', text, flags=re.IGNORECASE)`:
delete every (leftmost, non-overlapping) occurrence of a boilerplate term. -/
def removeBoilerAux : Nat → List Char → List Char
  | 0, s => s
  | _ + 1, [] => []
  | fuel + 1, c :: rest =>
    match firstBoiler (c :: rest) with
    | some l => removeBoilerAux fuel ((c :: rest).drop l)
    | none => c :: removeBoilerAux fuel rest

/-- The character class kept by
`re.sub(r'[^\w\s\.\,\!\?\:\;\-\(\)\$\%\+\#]', ' ', text)`. -/
def isKeptChar (c : Char) : Bool :=
  isWordChar c || isPySpace c || c == '.' || c == ',' || c == '!' || c == '?' ||
  c == ':' || c == ';' || c == '-' || c == '(' || c == ')' || c == '$' ||
  c == '%' || c == '+' || c == '#'

/-- Python's `str.split()` (split on whitespace runs, no empty words). -/
def pySplitAux : Nat → List Char → List (List Char)
  | 0, _ => []
  | fuel + 1, s =>
    let s₁ := s.dropWhile isPySpace
    match s₁ with
    | [] => []
    | _ :: _ =>
      let w := s₁.takeWhile (fun c => !isPySpace c)
      w :: pySplitAux fuel (s₁.drop w.length)

/-- Python's `str.split()`. -/
def pySplit (s : List Char) : List (List Char) := pySplitAux (s.length + 1) s

/-- `important_short_words` of `_clean_text_enhanced` (the duplicated `'qa'`
of the Python set literal collapses). -/
def important_short_words : List (List Char) :=
  [cs "we", cs "us", cs "or", cs "to", cs "is", cs "it", cs "ai", cs "ml",
   cs "io", cs "ui", cs "ux", cs "qa", cs "bi"]

/-- The `Remove duplicate words in sequence` loop of `_clean_text_enhanced`:
`prev_word` starts as `""` and is updated only when a word is kept. -/
def dedupWords : List (List Char) → List Char → List (List Char)
  | [], _ => []
  | w :: rest, prev =>
    if (w.map Char.toLower) == (prev.map Char.toLower) then dedupWords rest prev
    else w :: dedupWords rest w

/-- `' '.join(words)`. -/
def joinSpace : List (List Char) → List Char
  | [] => []
  | [w] => w
  | w :: v :: rest => w ++ ' ' :: joinSpace (v :: rest)

/-- `_clean_text_enhanced(text)`. -/
def clean_text_enhanced (text : List Char) : List Char :=
  let t₁ := collapseWsAux (text.length + 1) text
  let t₂ := removeBoilerAux (t₁.length + 1) t₁
  let t₃ := t₂.map (fun c => if isKeptChar c then c else ' ')
  let words := pySplit t₃
  let words₂ := words.filter
    (fun w => decide (2 < w.length) || important_short_words.contains (w.map Char.toLower))
  pyStrip (joinSpace (dedupWords words₂ []))

/-! ### `_scrape_single_page` -/

/-- An anchor element of the parsed homepage:
`link['href']` and `link.get_text()`. -/
structure Link where
  href : List Char
  text : List Char

/-- A response delivered by `self.session.get` (after `raise_for_status`
succeeded): its declared content type, the text that
`_extract_main_content_enhanced` extracts from the stripped parsed document
(the HTML parsing itself is the oracle), and the document's anchors. -/
structure HttpResponse where
  contentType : List Char
  mainText : List Char
  links : List Link

/-- The ways an attempt (`session.get` + `raise_for_status`) can fail.
Every one of these is a `requests.exceptions.RequestException` subclass in
Python — in particular `SSLError` (a `ConnectionError`) — so every one is
caught by the inner `except requests.exceptions.RequestException` handler
that triggers the retry. -/
inductive ReqFailure where
  | sslError (msg : List Char)
  | timeout
  | connError (msg : List Char)
  | httpError (msg : List Char)
  | otherReq (msg : List Char)

/-- The value `_scrape_single_page` returns: success flag, cleaned content,
the parsed document's anchors (standing for the `soup` handle; empty when
`soup` is `None`), and the error reason. -/
structure PageResult where
  success : Bool
  content : List Char
  links : List Link
  error : Option (List Char)

/-- The body of `_scrape_single_page` after a response was obtained:
the content-type gate, element stripping + content extraction (oracle) and
`_clean_text_enhanced`. -/
def processResponse (resp : HttpResponse) : PageResult :=
  if isSubstr (cs "text/html") (resp.contentType.map Char.toLower) then
    { success := true, content := clean_text_enhanced resp.mainText,
      links := resp.links, error := none }
  else
    { success := false, content := [], links := [],
      error := some (cs "Not HTML content") }

/-- The outer exception handlers of `_scrape_single_page`, in source order:
`SSLError`, then `Timeout`, then `RequestException`.  (`ConnectionError`,
`HTTPError` and other request exceptions all fall to the generic
`RequestException` handler.) -/
def classifyFailure : ReqFailure → PageResult
  | .sslError m =>
    { success := false, content := [], links := [],
      error := some (cs "SSL Error: " ++ m) }
  | .timeout =>
    { success := false, content := [], links := [],
      error := some (cs "Request timeout") }
  | .connError m =>
    { success := false, content := [], links := [],
      error := some (cs "Request failed: " ++ m) }
  | .httpError m =>
    { success := false, content := [], links := [],
      error := some (cs "Request failed: " ++ m) }
  | .otherReq m =>
    { success := false, content := [], links := [],
      error := some (cs "Request failed: " ++ m) }

/-- `_scrape_single_page(url)`, parameterized by the outcomes of the first
request attempt and of the retry; the second component counts how many HTTP
requests were dispatched.  The first attempt's failure — whatever its kind —
is caught by the inner `except requests.exceptions.RequestException` and a
second request is always made; only the retry's failure reaches the outer
handlers.  (The HTTPS-forcing of the URL and the `time.sleep` calls do not
affect the returned value and are omitted.) -/
def scrape_single_page (att₁ att₂ : Except ReqFailure HttpResponse) :
    PageResult × Nat :=
  match att₁ with
  | .ok r => (processResponse r, 1)
  | .error _ =>
    match att₂ with
    | .ok r => (processResponse r, 2)
    | .error e => (classifyFailure e, 2)

/-! ### `_get_strategic_pages` -/

/-- `priority_pages` of `_get_strategic_pages`, keyword groups in the
Python dict's iteration order (about / services / technology / careers /
case-studies / contact). -/
def priority_pages : List (List (List Char)) :=
  [ [cs "about", cs "company", cs "team", cs "story"],
    [cs "services", cs "solutions", cs "products", cs "offerings"],
    [cs "technology", cs "tech-stack", cs "infrastructure", cs "platform"],
    [cs "careers", cs "jobs", cs "hiring", cs "join-us", cs "work-with-us"],
    [cs "case-studies", cs "portfolio", cs "work", cs "projects"],
    [cs "contact", cs "get-in-touch", cs "reach-us"] ]

/-- The innermost `for keyword in keywords` loop: on the first keyword that
occurs in the lowered href or lowered link text (while fewer than 4 extra
pages were found), resolve the href and — if new and different from the base
URL — record it and break; otherwise keep trying keywords.  State is
`(found_pages, pages)`. -/
def kwLoop (urljoin : List Char → List Char → List Char)
    (base href hrefLower textLower : List Char) :
    List (List Char) → List (List Char) × List (List Char) →
    List (List Char) × List (List Char)
  | [], st => st
  | kw :: kws, (found, pages) =>
    if (isSubstr kw hrefLower || isSubstr kw textLower) && decide (found.length < 4) then
      let full := urljoin base href
      if full ∉ found ∧ full ≠ base then (found ++ [full], pages ++ [full])
      else kwLoop urljoin base href hrefLower textLower kws (found, pages)
    else kwLoop urljoin base href hrefLower textLower kws (found, pages)

/-- The `for category, keywords in priority_pages.items()` loop with its
`if len(found_pages) >= 4: break`. -/
def catLoop (urljoin : List Char → List Char → List Char)
    (base href hrefLower textLower : List Char) :
    List (List (List Char)) → List (List Char) × List (List Char) →
    List (List Char) × List (List Char)
  | [], st => st
  | kws :: cats, st =>
    let st' := kwLoop urljoin base href hrefLower textLower kws st
    if 4 ≤ st'.1.length then st'
    else catLoop urljoin base href hrefLower textLower cats st'

/-- The `for link in links` loop with its `if len(found_pages) >= 4: break`;
`href` is lowered for matching, the link text is lowered and stripped, and
`urljoin` receives the original href. -/
def linkLoop (urljoin : List Char → List Char → List Char) (base : List Char) :
    List Link → List (List Char) × List (List Char) →
    List (List Char) × List (List Char)
  | [], st => st
  | lk :: lks, st =>
    let st' := catLoop urljoin base lk.href (lk.href.map Char.toLower)
      (pyStrip (lk.text.map Char.toLower)) priority_pages st
    if 4 ≤ st'.1.length then st' else linkLoop urljoin base lks st'

/-- `_get_strategic_pages(base_url)`: start from `[base_url]`; if the
homepage fetch fails return that singleton, otherwise scan the homepage
anchors and return at most 5 pages (`pages[:5]`).  `fetch` is the per-URL
behaviour of `_scrape_single_page` (which never raises — all its exception
paths return a failure dict). -/
def get_strategic_pages (fetch : List Char → PageResult)
    (urljoin : List Char → List Char → List Char) (base : List Char) :
    List (List Char) :=
  let pages := [base]
  let hp := fetch base
  if hp.success then ((linkLoop urljoin base hp.links ([], pages)).2).take 5
  else pages

/-! ### `scrape_company_website` -/

/-- The page loop of `scrape_company_website`: concatenate
`"\n--- <url> ---\n" + content` for each successfully fetched page, breaking
once the buffer exceeds `max_content_length`. -/
def pageHeader (url : List Char) : List Char :=
  '\n' :: (cs "--- " ++ url ++ cs " ---" ++ ['\n'])

/-- The `for page_url in pages_to_scrape` loop of `scrape_company_website`. -/
def contentLoop (fetch : List Char → PageResult) (maxLen : Nat) :
    List (List Char) → List Char → List Char
  | [], acc => acc
  | url :: rest, acc =>
    let pd := fetch url
    if pd.success then
      let acc' := acc ++ pageHeader url ++ pd.content
      if maxLen < acc'.length then acc' else contentLoop fetch maxLen rest acc'
    else contentLoop fetch maxLen rest acc

/-- The intelligence profile `scrape_company_website` builds for a website:
page selection, content accumulation, then either the success path (mark
success, store the 500-character preview, extract intelligence, score) or
the `"No content extracted from any pages"` failure path.  Total by
construction: every page-level failure is already a failure *value* of
`fetch`, mirroring the source where `_scrape_single_page` catches all its
exceptions and the surrounding `try/except` converts any residual exception
into a failure profile. -/
def companyIntelligence (fetch : List Char → PageResult)
    (urljoin : List Char → List Char → List Char)
    (maxContentLength : Nat) (website : List Char) : HardwareIntelligence :=
  let pages := get_strategic_pages fetch urljoin website
  let allContent := contentLoop fetch maxContentLength pages []
  if allContent.isEmpty then
    { emptyHI with scraping_error := some (cs "No content extracted from any pages") }
  else
    let hi₁ := { extract_hardware_intelligence emptyHI allContent with
                 scraping_success := true, content_preview := allContent.take 500 }
    { hi₁ with hardware_readiness_score := calculate_hardware_readiness_score hi₁ }

/-! ### The company record as a Python dict -/

/-- A Python value, for modelling the company dicts. -/
inductive PyVal where
  | vStr : List Char → PyVal
  | vInt : Int → PyVal
  | vBool : Bool → PyVal
  | vNone : PyVal
  | vList : List PyVal → PyVal
  | vDict : List (String × PyVal) → PyVal

/-- Dict lookup (first binding of the key). -/
def dictGet (d : List (String × PyVal)) (k : String) : Option PyVal :=
  (d.find? (fun kv => kv.1 == k)).map (·.2)

/-- Dict update `d[k] = v`: replace the binding in place when the key is
present (Python dicts keep the key's position), else append it. -/
def dictSet (d : List (String × PyVal)) (k : String) (v : PyVal) :
    List (String × PyVal) :=
  if d.any (fun kv => kv.1 == k) then
    d.map (fun kv => if kv.1 == k then (k, v) else kv)
  else d ++ [(k, v)]

/-- The `hardware_intelligence` dict as stored into the company record:
the 13 keys initialized by `scrape_company_website` in insertion order,
plus `business_context` / `industry_context`, which
`_extract_additional_context` inserts exactly on the success path. -/
def encodeHI (hi : HardwareIntelligence) : PyVal :=
  .vDict
    ([ ("infrastructure_needs", .vList (hi.infrastructure_needs.map .vStr)),
       ("growth_indicators", .vList (hi.growth_indicators.map .vStr)),
       ("technical_pain_points", .vList (hi.technical_pain_points.map .vStr)),
       ("decision_makers", .vList (hi.decision_makers.map .vStr)),
       ("tech_stack", .vList (hi.tech_stack.map .vStr)),
       ("hardware_opportunities", .vList (hi.hardware_opportunities.map .vStr)),
       ("urgency_signals", .vList (hi.urgency_signals.map .vStr)),
       ("company_scale", .vList (hi.company_scale.map .vStr)),
       ("budget_indicators", .vList (hi.budget_indicators.map .vStr)),
       ("scraping_success", .vBool hi.scraping_success),
       ("scraping_error",
         match hi.scraping_error with
         | none => .vNone
         | some e => .vStr e),
       ("content_preview", .vStr hi.content_preview),
       ("hardware_readiness_score", .vInt hi.hardware_readiness_score) ] ++
     (if hi.scraping_success then
        [ ("business_context", .vList (hi.business_context.map .vStr)),
          ("industry_context", .vList (hi.industry_context.map .vStr)) ]
      else []))

/-- `scrape_company_website(company)`: copy the record and store the
intelligence profile under `hardware_intelligence` (the lookup
`company['website']` is modelled as defaulting to the empty string when the
key is absent or not a string). -/
def scrape_company_website (fetch : List Char → PageResult)
    (urljoin : List Char → List Char → List Char) (maxContentLength : Nat)
    (company : List (String × PyVal)) : List (String × PyVal) :=
  let website := match dictGet company "website" with
                 | some (.vStr s) => s
                 | _ => []
  dictSet company "hardware_intelligence"
    (encodeHI (companyIntelligence fetch urljoin maxContentLength website))

/-! ### `scrape_multiple_companies` -/

/-- The error-path dict of `scrape_multiple_companies`' `except` branch
(13 keys, in that branch's own insertion order). -/
def batchFailVal (e : List Char) : PyVal :=
  .vDict
    [ ("scraping_success", .vBool false),
      ("scraping_error", .vStr e),
      ("infrastructure_needs", .vList []),
      ("growth_indicators", .vList []),
      ("technical_pain_points", .vList []),
      ("decision_makers", .vList []),
      ("tech_stack", .vList []),
      ("hardware_opportunities", .vList []),
      ("urgency_signals", .vList []),
      ("company_scale", .vList []),
      ("budget_indicators", .vList []),
      ("hardware_readiness_score", .vInt 0),
      ("content_preview", .vStr []) ]

/-- `scrape_multiple_companies(companies, max_workers)`.  The futures dict
`{executor.submit(...): company for company in companies}` is iterated in
insertion order (= input order); each `future.result(timeout=45)` is the
oracle `taskResult` (indexed by submission position): `ok` is the record
`scrape_company_website` returned in that worker, `error` is a raised
exception or the 45-second `TimeoutError`, handled by the `except` branch.
`maxWorkers` (the pool size) only affects scheduling, never the collected
list. -/
def scrape_multiple_companies
    (taskResult : Nat → List (String × PyVal) → Except (List Char) (List (String × PyVal)))
    (maxWorkers : Nat) (companies : List (List (String × PyVal))) :
    List (List (String × PyVal)) :=
  companies.enum.foldl
    (fun acc ic =>
      acc ++ [match taskResult ic.1 ic.2 with
              | .ok ec => ec
              | .error e => dictSet ic.2 "hardware_intelligence" (batchFailVal e)])
    []

/-! ### Shared auxiliary definitions for the verification statements -/

/-- The invariant of a pattern-category list: at most 5 entries, no
duplicates, every entry longer than 5 characters. -/
def goodCat (l : List (List Char)) : Prop :=
  l.length ≤ 5 ∧ l.Nodup ∧ ∀ x ∈ l, 5 < x.length

/-- A concrete always-failing page result (for witnesses). -/
def failPage : PageResult :=
  { success := false, content := [], links := [], error := some (cs "Request timeout") }

/-- Adjacent characters are never both whitespace. -/
def noTwoSpaces (a b : Char) : Prop := ¬(isPySpace a = true ∧ isPySpace b = true)

/-- A word as produced by `str.split()`: non-empty and whitespace-free. -/
def goodWord (w : List Char) : Prop := w ≠ [] ∧ ∀ c ∈ w, isPySpace c = false

/-- `x` is a match of `r` against a prefix of `s` for every fuel of at least
`n` (used to assemble concrete match derivations fuel-uniformly). -/
def MatchFrom (n : Nat) (r : Rgx) (s : List Char) (x : Nat × Option (List Char)) : Prop :=
  ∀ g, n ≤ g → x ∈ matchRes g r s

/-- A character that neither `str.strip()` nor `.rstrip('.,!?:;')` removes. -/
def keepChar (ch : Char) : Prop := isPySpace ch = false ∧ isTrailPunct ch = false

/-- Every non-empty match of `r` starts with a character satisfying `P`. -/
def HeadOK (P : Char → Prop) (r : Rgx) : Prop :=
  ∀ fuel s l c, (l, c) ∈ matchRes fuel r s →
    l = 0 ∨ ∃ ch, (s.take l).head? = some ch ∧ P ch

/-- Every non-empty match of `r` ends with a character satisfying `P`. -/
def LastOK (P : Char → Prop) (r : Rgx) : Prop :=
  ∀ fuel s l c, (l, c) ∈ matchRes fuel r s →
    l = 0 ∨ ∃ ch, (s.take l).getLast? = some ch ∧ P ch

/-! ### C1: the hardware readiness score -/

theorem score_term_eq (l : List (List Char)) (cap w : Nat) :
    (if l.isEmpty then 0 else min cap (l.length * w)) = min cap (w * l.length) := by
  cases l <;> simp [Nat.mul_comm]

/-- The score as a closed formula of the five scored list lengths. -/
theorem score_eq (hi : HardwareIntelligence) :
    calculate_hardware_readiness_score hi =
      min 100 (min 30 (10 * hi.infrastructure_needs.length) +
        min 25 (8 * hi.growth_indicators.length) +
        min 20 (7 * hi.technical_pain_points.length) +
        min 15 (15 * hi.urgency_signals.length) +
        min 10 (10 * hi.budget_indicators.length)) := by
  simp only [calculate_hardware_readiness_score, score_term_eq, Nat.zero_add]

/-- C1: for every intelligence profile the hardware readiness score equals
`min 100 (min 30 (10·|infrastructure_needs|) + min 25 (8·|growth_indicators|)
+ min 20 (7·|technical_pain_points|) + min 15 (15·|urgency_signals|) +
min 10 (10·|budget_indicators|))`; hence it is a Nat bounded by 100 that
depends only on the lengths of those five lists (the other categories and
empty categories contribute 0), and recomputing it from the same lists gives
the same value (it is a pure function). -/
theorem hardware_readiness_score_spec (hi : HardwareIntelligence) :
    calculate_hardware_readiness_score hi =
      min 100 (min 30 (10 * hi.infrastructure_needs.length) +
        min 25 (8 * hi.growth_indicators.length) +
        min 20 (7 * hi.technical_pain_points.length) +
        min 15 (15 * hi.urgency_signals.length) +
        min 10 (10 * hi.budget_indicators.length)) ∧
    calculate_hardware_readiness_score hi ≤ 100 :=
  ⟨score_eq hi, (score_eq hi) ▸ Nat.min_le_left _ _⟩

/-! ### C6: `_get_strategic_pages` -/

theorem kwLoop_snd (u : List Char → List Char → List Char) (b h hl tl : List Char) :
    ∀ (kws : List (List Char)) (found pages : List (List Char)),
      ∃ ext, (kwLoop u b h hl tl kws (found, pages)).2 = pages ++ ext := by
  intro kws
  induction kws with
  | nil => exact fun found pages => ⟨[], by simp [kwLoop]⟩
  | cons kw kws ih =>
    intro found pages
    simp only [kwLoop]
    split
    · split
      · exact ⟨[u b h], rfl⟩
      · exact ih found pages
    · exact ih found pages

theorem catLoop_snd (u : List Char → List Char → List Char) (b h hl tl : List Char) :
    ∀ (cats : List (List (List Char))) (found pages : List (List Char)),
      ∃ ext, (catLoop u b h hl tl cats (found, pages)).2 = pages ++ ext := by
  intro cats
  induction cats with
  | nil => exact fun found pages => ⟨[], by simp [catLoop]⟩
  | cons kws cats ih =>
    intro found pages
    obtain ⟨e₁, he₁⟩ := kwLoop_snd u b h hl tl kws found pages
    simp only [catLoop]
    split
    · exact ⟨e₁, he₁⟩
    · obtain ⟨e₂, he₂⟩ := ih (kwLoop u b h hl tl kws (found, pages)).1
        (kwLoop u b h hl tl kws (found, pages)).2
      refine ⟨e₁ ++ e₂, ?_⟩
      rw [← List.append_assoc, ← he₁]
      exact he₂

theorem linkLoop_snd (u : List Char → List Char → List Char) (b : List Char) :
    ∀ (lks : List Link) (found pages : List (List Char)),
      ∃ ext, (linkLoop u b lks (found, pages)).2 = pages ++ ext := by
  intro lks
  induction lks with
  | nil => exact fun found pages => ⟨[], by simp [linkLoop]⟩
  | cons lk lks ih =>
    intro found pages
    obtain ⟨e₁, he₁⟩ := catLoop_snd u b lk.href (lk.href.map Char.toLower)
      (pyStrip (lk.text.map Char.toLower)) priority_pages found pages
    simp only [linkLoop]
    split
    · exact ⟨e₁, he₁⟩
    · obtain ⟨e₂, he₂⟩ := ih
        (catLoop u b lk.href (lk.href.map Char.toLower)
          (pyStrip (lk.text.map Char.toLower)) priority_pages (found, pages)).1
        (catLoop u b lk.href (lk.href.map Char.toLower)
          (pyStrip (lk.text.map Char.toLower)) priority_pages (found, pages)).2
      refine ⟨e₁ ++ e₂, ?_⟩
      rw [← List.append_assoc, ← he₁]
      exact he₂

/-- C6: page selection always returns between 1 and 5 URLs whose first
element is the input base URL, and when the homepage fetch fails the result
is exactly `[base_url]`. -/
theorem get_strategic_pages_spec (fetch : List Char → PageResult)
    (u : List Char → List Char → List Char) (base : List Char) :
    (1 ≤ (get_strategic_pages fetch u base).length ∧
     (get_strategic_pages fetch u base).length ≤ 5 ∧
     (get_strategic_pages fetch u base).head? = some base) ∧
    ((fetch base).success = false → get_strategic_pages fetch u base = [base]) := by
  unfold get_strategic_pages
  cases hs : (fetch base).success with
  | false => simp [hs]
  | true =>
    simp only [hs, if_true]
    obtain ⟨ext, he⟩ := linkLoop_snd u base (fetch base).links [] [base]
    rw [he]
    refine ⟨⟨?_, ?_, ?_⟩, fun hf => Bool.noConfusion hf⟩
    · simp
    · simp [List.length_take]
    · simp

/-- C6 witness: with a homepage fetch that fails, the selected pages are
exactly the base URL. -/
theorem get_strategic_pages_spec_witness :
    get_strategic_pages (fun _ => failPage) (fun _ h => h) (cs "https://acme.example") =
      [cs "https://acme.example"] :=
  (get_strategic_pages_spec (fun _ => failPage) (fun _ h => h)
    (cs "https://acme.example")).2 rfl

/-! ### C5: a company whose every page fetch fails -/

theorem contentLoop_allFail (fetch : List Char → PageResult)
    (h : ∀ url, (fetch url).success = false) (maxLen : Nat) :
    ∀ (pages : List (List Char)) (acc : List Char),
      contentLoop fetch maxLen pages acc = acc := by
  intro pages
  induction pages with
  | nil => intro acc; rfl
  | cons url rest ih =>
    intro acc
    simp only [contentLoop, h url]
    simpa using ih acc

set_option maxRecDepth 4000 in
theorem company_fail_eq (fetch : List Char → PageResult)
    (u : List Char → List Char → List Char) (mcl : Nat) (website : List Char)
    (h : ∀ url, (fetch url).success = false) :
    companyIntelligence fetch u mcl website =
      { emptyHI with scraping_error := some (cs "No content extracted from any pages") } := by
  have hc : contentLoop fetch mcl (get_strategic_pages fetch u website) [] = [] :=
    contentLoop_allFail fetch h mcl _ []
  simp only [companyIntelligence, hc, List.isEmpty_nil, if_true]

/-- C5: if every page fetch fails (no page yields content), the per-company
pipeline produces a profile with `scraping_success = false`, score 0, all
category lists empty and the non-empty error message
`"No content extracted from any pages"`.  (`companyIntelligence` is a total
function — no exception escapes the per-company pipeline: in the source
`_scrape_single_page` and `_get_strategic_pages` catch their own exceptions
and the surrounding `try/except Exception` of `scrape_company_website`
downgrades anything else to this failure profile.) -/
theorem company_all_fetch_fail (fetch : List Char → PageResult)
    (u : List Char → List Char → List Char) (mcl : Nat) (website : List Char)
    (h : ∀ url, (fetch url).success = false) :
    (companyIntelligence fetch u mcl website).scraping_success = false ∧
    (companyIntelligence fetch u mcl website).hardware_readiness_score = 0 ∧
    (companyIntelligence fetch u mcl website).infrastructure_needs = [] ∧
    (companyIntelligence fetch u mcl website).growth_indicators = [] ∧
    (companyIntelligence fetch u mcl website).technical_pain_points = [] ∧
    (companyIntelligence fetch u mcl website).decision_makers = [] ∧
    (companyIntelligence fetch u mcl website).tech_stack = [] ∧
    (companyIntelligence fetch u mcl website).hardware_opportunities = [] ∧
    (companyIntelligence fetch u mcl website).urgency_signals = [] ∧
    (companyIntelligence fetch u mcl website).company_scale = [] ∧
    (companyIntelligence fetch u mcl website).budget_indicators = [] ∧
    (companyIntelligence fetch u mcl website).scraping_error =
      some (cs "No content extracted from any pages") ∧
    cs "No content extracted from any pages" ≠ [] := by
  rw [company_fail_eq fetch u mcl website h]
  refine ⟨rfl, rfl, rfl, rfl, rfl, rfl, rfl, rfl, rfl, rfl, rfl, rfl, by decide⟩

/-- C5 witness: the failure profile at a concrete constant-failure fetch. -/
theorem company_all_fetch_fail_witness :
    (companyIntelligence (fun _ => failPage) (fun _ h => h) 4000
      (cs "https://acme.example")).scraping_success = false :=
  (company_all_fetch_fail (fun _ => failPage) (fun _ h => h) 4000
    (cs "https://acme.example") (fun _ => rfl)).1

/-! ### C9: `scrape_multiple_companies` -/

theorem foldl_append_map {α β : Type} (f : α → β) :
    ∀ (l : List α) (acc : List β),
      l.foldl (fun a x => a ++ [f x]) acc = acc ++ l.map f := by
  intro l
  induction l with
  | nil => intro acc; simp
  | cons x xs ih =>
    intro acc
    simp only [List.foldl_cons, List.map_cons]
    rw [ih (acc ++ [f x])]
    simp

/-- C9: batch processing returns exactly one record per input company, in
input order, for every worker-pool size and every per-task outcome
(success, raised exception, or the 45 s `future.result` timeout): the
result equals the input list mapped through the per-task handler, so its
length is the input length.  The futures dict is iterated in insertion
order, which is the input order, independent of completion order. -/
theorem scrape_multiple_companies_spec
    (tr : Nat → List (String × PyVal) → Except (List Char) (List (String × PyVal)))
    (mw : Nat) (companies : List (List (String × PyVal))) :
    scrape_multiple_companies tr mw companies =
      companies.enum.map (fun ic =>
        match tr ic.1 ic.2 with
        | .ok ec => ec
        | .error e => dictSet ic.2 "hardware_intelligence" (batchFailVal e)) ∧
    (scrape_multiple_companies tr mw companies).length = companies.length := by
  have h := foldl_append_map
    (fun ic : Nat × List (String × PyVal) =>
      match tr ic.1 ic.2 with
      | .ok ec => ec
      | .error e => dictSet ic.2 "hardware_intelligence" (batchFailVal e))
    companies.enum []
  refine ⟨h, ?_⟩
  rw [show scrape_multiple_companies tr mw companies = _ from h]
  simp

/-! ### C10: the frame of `scrape_company_website` on the company record -/

theorem dictGet_cons_ne (kv : String × PyVal) (rest : List (String × PyVal))
    (k : String) (h : (kv.1 == k) = false) :
    dictGet (kv :: rest) k = dictGet rest k := by
  simp [dictGet, List.find?_cons, h]

theorem dictGet_cons_eq (kv : String × PyVal) (rest : List (String × PyVal))
    (k : String) (h : (kv.1 == k) = true) :
    dictGet (kv :: rest) k = some kv.2 := by
  simp [dictGet, List.find?_cons, h]

theorem dictGet_map_set_ne (k k' : String) (v : PyVal) (h : (k' == k) = false) :
    ∀ d : List (String × PyVal),
      dictGet (d.map (fun kv => if kv.1 == k' then (k', v) else kv)) k = dictGet d k := by
  intro d
  induction d with
  | nil => rfl
  | cons kv rest ih =>
    cases hk : (kv.1 == k') with
    | true =>
      have hk1 : kv.1 = k' := by simpa using hk
      simp only [List.map_cons, hk, if_true]
      rw [dictGet_cons_ne _ _ _ h, dictGet_cons_ne _ _ _ (by rw [hk1]; exact h)]
      exact ih
    | false =>
      simp only [List.map_cons, hk, Bool.false_eq_true, if_false]
      cases hkk : (kv.1 == k) with
      | true => rw [dictGet_cons_eq _ _ _ hkk, dictGet_cons_eq _ _ _ hkk]
      | false => rw [dictGet_cons_ne _ _ _ hkk, dictGet_cons_ne _ _ _ hkk]; exact ih

theorem dictGet_append_single_ne (k k' : String) (v : PyVal) (h : (k' == k) = false) :
    ∀ d : List (String × PyVal), dictGet (d ++ [(k', v)]) k = dictGet d k := by
  intro d
  induction d with
  | nil => simp [dictGet, List.find?, h]
  | cons kv rest ih =>
    rw [List.cons_append]
    cases hkk : (kv.1 == k) with
    | true => rw [dictGet_cons_eq _ _ _ hkk, dictGet_cons_eq _ _ _ hkk]
    | false => rw [dictGet_cons_ne _ _ _ hkk, dictGet_cons_ne _ _ _ hkk]; exact ih

/-- `d[k'] = v` does not change the value at any other key. -/
theorem dictGet_dictSet_ne (d : List (String × PyVal)) (k k' : String) (v : PyVal)
    (h : k ≠ k') : dictGet (dictSet d k' v) k = dictGet d k := by
  have hb : (k' == k) = false := by
    simp only [beq_eq_false_iff_ne, ne_eq]
    exact fun hh => h hh.symm
  unfold dictSet
  split
  · exact dictGet_map_set_ne k k' v hb d
  · exact dictGet_append_single_ne k k' v hb d

theorem dictGet_map_set_eq (k : String) (v : PyVal) :
    ∀ d : List (String × PyVal), d.any (fun kv => kv.1 == k) = true →
      dictGet (d.map (fun kv => if kv.1 == k then (k, v) else kv)) k = some v := by
  intro d
  induction d with
  | nil => intro h; cases h
  | cons kv rest ih =>
    intro h
    cases hk : (kv.1 == k) with
    | true =>
      simp only [List.map_cons, hk, if_true]
      rw [dictGet_cons_eq _ _ _ (by simp)]
    | false =>
      simp only [List.map_cons, hk, Bool.false_eq_true, if_false]
      rw [dictGet_cons_ne _ _ _ hk]
      refine ih ?_
      rw [List.any_cons] at h
      simpa [hk] using h

theorem dictGet_append_single_eq (k : String) (v : PyVal) :
    ∀ d : List (String × PyVal), d.any (fun kv => kv.1 == k) = false →
      dictGet (d ++ [(k, v)]) k = some v := by
  intro d
  induction d with
  | nil => intro _; rw [List.nil_append, dictGet_cons_eq _ _ _ (by simp)]
  | cons kv rest ih =>
    intro h
    rw [List.any_cons] at h
    have h1 : (kv.1 == k) = false := by
      cases hkk : (kv.1 == k) with
      | true => rw [hkk] at h; simp at h
      | false => rfl
    rw [List.cons_append, dictGet_cons_ne _ _ _ h1]
    refine ih ?_
    simpa [h1] using h

/-- `d[k] = v` makes the value at `k` equal to `v`. -/
theorem dictGet_dictSet_eq (d : List (String × PyVal)) (k : String) (v : PyVal) :
    dictGet (dictSet d k v) k = some v := by
  unfold dictSet
  cases hb : d.any (fun kv => kv.1 == k) with
  | true =>
    rw [if_pos rfl]
    exact dictGet_map_set_eq k v d hb
  | false =>
    rw [if_neg (by simp)]
    exact dictGet_append_single_eq k v d hb

/-- C10 (amended): per-company processing preserves every field of the input
record other than `hardware_intelligence` — that key is set to the encoded
intelligence profile, added when absent and *overwritten* when the input
already carries one. -/
theorem scrape_company_frame (fetch : List Char → PageResult)
    (u : List Char → List Char → List Char) (mcl : Nat)
    (company : List (String × PyVal)) (k : String)
    (h : k ≠ "hardware_intelligence") :
    dictGet (scrape_company_website fetch u mcl company) k = dictGet company k ∧
    dictGet (scrape_company_website fetch u mcl company) "hardware_intelligence" =
      some (encodeHI (companyIntelligence fetch u mcl
        (match dictGet company "website" with
         | some (.vStr s) => s
         | _ => []))) :=
  ⟨dictGet_dictSet_ne company k "hardware_intelligence" _ h,
   dictGet_dictSet_eq company "hardware_intelligence" _⟩

/-- C10 witness: the `name` field of a concrete company record is unchanged
by processing. -/
theorem scrape_company_frame_witness :
    dictGet (scrape_company_website (fun _ => failPage) (fun _ h => h) 4000
      [("name", PyVal.vStr (cs "acme"))]) "name" =
      dictGet [("name", PyVal.vStr (cs "acme"))] "name" :=
  (scrape_company_frame (fun _ => failPage) (fun _ h => h) 4000
    [("name", PyVal.vStr (cs "acme"))] "name" (by decide)).1

/-- C10 counterexample: a company record that already carries a
`hardware_intelligence` field does *not* keep its original value — the field
is overwritten with the freshly computed profile, so "every original input
field is still present with its original value unchanged" fails on this
input. -/
theorem scrape_company_overwrites_counterexample :
    dictGet (scrape_company_website (fun _ => failPage) (fun _ h => h) 4000
      [("name", PyVal.vStr (cs "acme")),
       ("website", PyVal.vStr (cs "https://acme.example")),
       ("hardware_intelligence", PyVal.vInt 7)]) "hardware_intelligence" ≠
      some (PyVal.vInt 7) := by
  intro hcontra
  have he : dictGet (dictSet
      [("name", PyVal.vStr (cs "acme")),
       ("website", PyVal.vStr (cs "https://acme.example")),
       ("hardware_intelligence", PyVal.vInt 7)] "hardware_intelligence"
      (encodeHI (companyIntelligence (fun _ => failPage) (fun _ h => h) 4000
        (cs "https://acme.example")))) "hardware_intelligence" =
      some (encodeHI (companyIntelligence (fun _ => failPage) (fun _ h => h) 4000
        (cs "https://acme.example"))) :=
    dictGet_dictSet_eq _ _ _
  have h3 := Option.some.inj ((he.symm.trans hcontra))
  exact PyVal.noConfusion h3

/-! ### C7: retry behaviour of `_scrape_single_page` -/

/-- C7 counterexample: when the *first* request fails with an SSL error, a
second request is still dispatched (the inner
`except requests.exceptions.RequestException` retry also catches
`SSLError`), contradicting "reports that failure without making a second
request". -/
theorem ssl_first_failure_retried_counterexample :
    (scrape_single_page (Except.error (ReqFailure.sslError (cs "handshake failed")))
      (Except.error (ReqFailure.sslError (cs "handshake failed")))).2 = 2 ∧
    ¬ (scrape_single_page (Except.error (ReqFailure.sslError (cs "handshake failed")))
      (Except.error (ReqFailure.sslError (cs "handshake failed")))).2 = 1 :=
  ⟨rfl, by decide⟩

/-- C7 (amended): exactly one retry is performed for *every* kind of
first-request failure — timeout, connection error, SSL error, HTTP error
status alike (they are all `RequestException`s) — and no retry when the
first attempt returns a response; an SSL failure of the retry is then
reported with the `SSL Error:` tag by the dedicated outer handler. -/
theorem scrape_single_page_request_count (att₁ att₂ : Except ReqFailure HttpResponse) :
    ((scrape_single_page att₁ att₂).2 =
      match att₁ with
      | .ok _ => 1
      | .error _ => 2) ∧
    (∀ e m, att₁ = .error e → att₂ = .error (.sslError m) →
      (scrape_single_page att₁ att₂).1.error = some (cs "SSL Error: " ++ m)) := by
  constructor
  · cases att₁ with
    | ok r => rfl
    | error e => cases att₂ <;> rfl
  · intro e m h₁ h₂
    rw [h₁, h₂]
    rfl

/-- C7 witness: the retry's SSL failure is reported with the SSL tag after
two requests. -/
theorem scrape_single_page_request_count_witness :
    (scrape_single_page (Except.error ReqFailure.timeout)
      (Except.error (ReqFailure.sslError (cs "bad cert")))).1.error =
      some (cs "SSL Error: " ++ cs "bad cert") :=
  (scrape_single_page_request_count (Except.error ReqFailure.timeout)
    (Except.error (ReqFailure.sslError (cs "bad cert")))).2
    ReqFailure.timeout (cs "bad cert") rfl rfl

/-! ### C2/C3: the budget-indicator accumulation -/

/-- One pattern's budget loop leaves at most 3 entries when it started below
3, and adds at most one entry when it started at 3 or more (the `>= 3` check
runs only *after* an append, and only breaks the inner loop). -/
theorem budgetLoop_length : ∀ (found acc : List (List Char)),
    (budgetLoop found acc).length ≤ 3 ∨ (budgetLoop found acc).length ≤ acc.length + 1 := by
  intro found
  induction found with
  | nil => intro acc; right; simp [budgetLoop]
  | cons m rest ih =>
    intro acc
    simp only [budgetLoop]
    split
    · right; simp
    · rename_i hgt
      left
      rcases ih (acc ++ [budgetPrefix ++ m]) with h | h
      · exact h
      · simp only [List.length_append, List.length_cons, List.length_nil] at h hgt
        omega

/-- Folding the budget loop over a non-empty pattern list from `acc` yields
at most `max 3 (|acc| + 1)` entries after the first pattern and at most one
more per further pattern. -/
theorem budget_fold_cons_bound : ∀ (ps : List Rgx) (p : Rgx) (c : List Char)
    (acc : List (List Char)),
    (List.foldl (fun a q => budgetLoop (pyFindall q c) a) acc (p :: ps)).length ≤
      max 3 (acc.length + 1) + ps.length := by
  intro ps
  induction ps with
  | nil =>
    intro p c acc
    simp only [List.foldl_cons, List.foldl_nil, List.length_nil, Nat.add_zero]
    rcases budgetLoop_length (pyFindall p c) acc with h | h
    · exact le_trans h (Nat.le_max_left _ _)
    · exact le_trans h (Nat.le_max_right _ _)
  | cons q ps' ih =>
    intro p c acc
    have h₁ := ih q c (budgetLoop (pyFindall p c) acc)
    rw [show List.foldl (fun a q => budgetLoop (pyFindall q c) a) acc (p :: q :: ps') =
        List.foldl (fun a q => budgetLoop (pyFindall q c) a)
          (budgetLoop (pyFindall p c) acc) (q :: ps') from rfl]
    have h₂ : max 3 ((budgetLoop (pyFindall p c) acc).length + 1) ≤
        max 3 (acc.length + 1) + 1 := by
      apply Nat.max_le.mpr
      constructor
      · have := Nat.le_max_left 3 (acc.length + 1); omega
      · rcases budgetLoop_length (pyFindall p c) acc with h | h
        · have := Nat.le_max_left 3 (acc.length + 1); omega
        · have := Nat.le_max_right 3 (acc.length + 1); omega
    simp only [List.length_cons]
    omega

/-- C2/C3: `_extract_budget_indicators` returns at most 7 entries: 3 from the
first pattern that reaches the cap, plus at most one per later pattern. -/
theorem extract_budget_indicators_length (c : List Char) :
    (extract_budget_indicators c).length ≤ 7 :=
  le_trans (budget_fold_cons_bound _ _ c []) (by decide)

/-- Every entry the budget loop adds has the synthetic
`Financial indicator: $` form. -/
theorem budgetLoop_mem : ∀ (found acc : List (List Char)) (e : List Char),
    e ∈ budgetLoop found acc → e ∈ acc ∨ ∃ m ∈ found, e = budgetPrefix ++ m := by
  intro found
  induction found with
  | nil => intro acc e he; exact .inl he
  | cons m rest ih =>
    intro acc e he
    simp only [budgetLoop] at he
    split at he
    · rcases List.mem_append.mp he with h | h
      · exact .inl h
      · right; exact ⟨m, List.mem_cons_self _ _, by simpa using h⟩
    · rcases ih _ e he with h | h
      · rcases List.mem_append.mp h with h' | h'
        · exact .inl h'
        · right; exact ⟨m, List.mem_cons_self _ _, by simpa using h'⟩
      · obtain ⟨m', hmm2', he'⟩ := h
        exact .inr ⟨m', List.mem_cons_of_mem _ hmm2', he'⟩

theorem budget_fold_mem : ∀ (ps : List Rgx) (c : List Char) (acc : List (List Char))
    (e : List Char),
    e ∈ List.foldl (fun a p => budgetLoop (pyFindall p c) a) acc ps →
    e ∈ acc ∨ ∃ p ∈ ps, ∃ m ∈ pyFindall p c, e = budgetPrefix ++ m := by
  intro ps
  induction ps with
  | nil => intro c acc e he; exact .inl he
  | cons p ps' ih =>
    intro c acc e he
    rcases ih c (budgetLoop (pyFindall p c) acc) e he with h | h
    · rcases budgetLoop_mem (pyFindall p c) acc e h with h' | h'
      · exact .inl h'
      · obtain ⟨m, hm, he'⟩ := h'
        exact .inr ⟨p, List.mem_cons_self _ _, m, hm, he'⟩
    · obtain ⟨q, hq, m, hm, he'⟩ := h
      exact .inr ⟨q, List.mem_cons_of_mem _ hq, m, hm, he'⟩

/-- C2 (amended): the budget-indicator extraction returns at most 7 entries
(the `>= 3` break only stops the *current* pattern's loop; each later
pattern with a match appends one more entry before the check fires), and
every entry has the exact form `"Financial indicator: $" ++ amount` where
`amount` is captured by one of the five budget patterns on the content. -/
theorem extract_budget_indicators_spec (content : List Char) :
    (extract_budget_indicators content).length ≤ 7 ∧
    ∀ e ∈ extract_budget_indicators content,
      ∃ p ∈ budget_patterns, ∃ m ∈ pyFindall p content, e = budgetPrefix ++ m := by
  refine ⟨extract_budget_indicators_length content, ?_⟩
  intro e he
  rcases budget_fold_mem budget_patterns content [] e he with h | h
  · cases h
  · exact h

/-- C2 witness: on `"budget of 9"` the entry `"Financial indicator: $9"` is
produced by one of the budget patterns. -/
theorem extract_budget_indicators_spec_witness :
    ∃ p ∈ budget_patterns, ∃ m ∈ pyFindall p (cs "budget of 9"),
      cs "Financial indicator: $9" = budgetPrefix ++ m :=
  (extract_budget_indicators_spec (cs "budget of 9")).2 _ (by decide)

/-- C2 counterexample: on
`"budget of 9 budget of 8 budget of 7"` the extraction returns 4 entries
(3 from the first pattern, one more from the generic fifth pattern), so
"at most 3 entries" is false. -/
theorem extract_budget_indicators_cap3_counterexample :
    ¬ ((extract_budget_indicators (cs "budget of 9 budget of 8 budget of 7")).length ≤ 3) := by
  decide

/-! ### C3: the pattern-category invariant -/

theorem processMatches_good : ∀ (found acc : List (List Char)),
    acc.Nodup → (∀ x ∈ acc, 5 < x.length) →
    (processMatches found acc).Nodup ∧ ∀ x ∈ processMatches found acc, 5 < x.length := by
  intro found
  induction found with
  | nil => intro acc h₁ h₂; exact ⟨h₁, h₂⟩
  | cons m rest ih =>
    intro acc h₁ h₂
    simp only [processMatches]
    split
    · rename_i hc
      have h₁' : (acc ++ [cleanMatch m]).Nodup := by
        rw [List.nodup_append]
        exact ⟨h₁, List.nodup_singleton _, by simpa using hc.2⟩
      have h₂' : ∀ x ∈ acc ++ [cleanMatch m], 5 < x.length := by
        intro x hx
        rcases List.mem_append.mp hx with h | h
        · exact h₂ x h
        · have : x = cleanMatch m := by simpa using h
          rw [this]; exact hc.1
      split
      · exact ⟨h₁', h₂'⟩
      · exact ih _ h₁' h₂'
    · exact ih _ h₁ h₂

theorem extract_pattern_matches_good (content : List Char) (patterns : List Rgx) :
    goodCat (extract_pattern_matches content patterns) := by
  have key : ∀ (ps : List Rgx) (acc : List (List Char)),
      acc.Nodup → (∀ x ∈ acc, 5 < x.length) →
      (List.foldl (fun a p => processMatches (pyFindall p content) a) acc ps).Nodup ∧
      ∀ x ∈ List.foldl (fun a p => processMatches (pyFindall p content) a) acc ps,
        5 < x.length := by
    intro ps
    induction ps with
    | nil => intro acc h₁ h₂; exact ⟨h₁, h₂⟩
    | cons p ps' ih =>
      intro acc h₁ h₂
      obtain ⟨h₁', h₂'⟩ := processMatches_good (pyFindall p content) acc h₁ h₂
      exact ih _ h₁' h₂'
  obtain ⟨hn, hl⟩ := key patterns [] (List.nodup_nil) (by simp)
  refine ⟨?_, ?_, ?_⟩
  · simp [extract_pattern_matches, List.length_take]
  · exact List.Nodup.sublist (List.take_sublist _ _) hn
  · intro x hx
    exact hl x (List.mem_of_mem_take hx)

/-- C3 (amended): in every extracted profile, each of the eight
pattern-match category lists has at most 5 entries, no case-sensitive
duplicates, and only entries longer than 5 characters; the
`budget_indicators` list — which the source neither deduplicates nor
truncates — has at most 7 entries (and may contain duplicates). -/
theorem extract_hardware_intelligence_good (hi : HardwareIntelligence)
    (text : List Char) :
    (goodCat (extract_hardware_intelligence hi text).infrastructure_needs ∧
     goodCat (extract_hardware_intelligence hi text).growth_indicators ∧
     goodCat (extract_hardware_intelligence hi text).technical_pain_points ∧
     goodCat (extract_hardware_intelligence hi text).decision_makers ∧
     goodCat (extract_hardware_intelligence hi text).tech_stack ∧
     goodCat (extract_hardware_intelligence hi text).hardware_opportunities ∧
     goodCat (extract_hardware_intelligence hi text).urgency_signals ∧
     goodCat (extract_hardware_intelligence hi text).company_scale) ∧
    (extract_hardware_intelligence hi text).budget_indicators.length ≤ 7 := by
  refine ⟨⟨?_, ?_, ?_, ?_, ?_, ?_, ?_, ?_⟩, ?_⟩
  · exact extract_pattern_matches_good _ _
  · exact extract_pattern_matches_good _ _
  · exact extract_pattern_matches_good _ _
  · exact extract_pattern_matches_good _ _
  · exact extract_pattern_matches_good _ _
  · exact extract_pattern_matches_good _ _
  · exact extract_pattern_matches_good _ _
  · exact extract_pattern_matches_good _ _
  · exact extract_budget_indicators_length _

/-- C3 witness: the budget bound instantiated on the empty text. -/
theorem extract_hardware_intelligence_good_witness :
    (extract_hardware_intelligence emptyHI (cs "")).budget_indicators.length ≤ 7 :=
  (extract_hardware_intelligence_good emptyHI (cs "")).2

/-- C3 counterexample: on
`"budget of 9 budget of 8 budget of 7 revenue of 6 funding of 5 raised 4"`
the profile's `budget_indicators` list has 7 entries (and repeats
`"Financial indicator: $9"`), so "every category list has length at most 5"
is false for `budget_indicators`. -/
theorem category_invariant_counterexample :
    ¬ ((extract_hardware_intelligence emptyHI
        (cs "budget of 9 budget of 8 budget of 7 revenue of 6 funding of 5 raised 4")).budget_indicators.length ≤ 5) := by
  decide
/-! ### C8: guarantees of `_clean_text_enhanced` -/

theorem pySplitAux_nil (fuel : Nat) : pySplitAux fuel [] = [] := by
  cases fuel <;> rfl

theorem dropWhile_head_false {p : Char → Bool} {l : List Char}
    (h : ∀ c, l.head? = some c → p c = false) : l.dropWhile p = l := by
  cases l with
  | nil => rfl
  | cons c rest => simp [List.dropWhile_cons, h c rfl]

theorem pyRStripWith_id {p : Char → Bool} {l : List Char}
    (h : ∀ c, l.getLast? = some c → p c = false) : pyRStripWith p l = l := by
  unfold pyRStripWith
  rw [dropWhile_head_false, List.reverse_reverse]
  intro c hc
  exact h c (by rwa [List.head?_reverse] at hc)

/-- Every word `str.split()` produces is non-empty and whitespace-free. -/
theorem pySplitAux_good : ∀ (fuel : Nat) (s : List Char) (w : List Char),
    w ∈ pySplitAux fuel s → goodWord w := by
  intro fuel
  induction fuel with
  | zero => intro s w hw; cases hw
  | succ f ih =>
    intro s w hw
    simp only [pySplitAux] at hw
    rcases hd : s.dropWhile isPySpace with _ | ⟨c, rest⟩
    · rw [hd] at hw; cases hw
    · rw [hd] at hw
      rcases List.mem_cons.mp hw with h | h
      · subst h
        constructor
        · have hc : isPySpace c = false := by
            have := List.head?_dropWhile_not isPySpace s
            rw [hd] at this
            simpa using this
          simp [List.takeWhile_cons, hc]
        · intro x hx
          have := List.mem_takeWhile_imp hx
          simpa using this
      · exact ih _ w h

theorem pySplit_good (s : List Char) (w : List Char) (hw : w ∈ pySplit s) : goodWord w :=
  pySplitAux_good _ s w hw

/-- Elements of the consecutive-dedup loop come from the input. -/
theorem dedupWords_subset : ∀ (ws : List (List Char)) (prev x : List Char),
    x ∈ dedupWords ws prev → x ∈ ws := by
  intro ws
  induction ws with
  | nil => intro prev x hx; cases hx
  | cons w rest ih =>
    intro prev x hx
    simp only [dedupWords] at hx
    split at hx
    · exact List.mem_cons_of_mem _ (ih _ x hx)
    · rcases List.mem_cons.mp hx with h | h
      · exact h ▸ List.mem_cons_self _ _
      · exact List.mem_cons_of_mem _ (ih _ x h)

/-- The dedup loop output has no two case-insensitively equal consecutive
words, and its first word differs (case-insensitively) from `prev`. -/
theorem dedupWords_chain : ∀ (ws : List (List Char)) (prev : List Char),
    List.Chain' (fun w v : List Char => w.map Char.toLower ≠ v.map Char.toLower)
      (dedupWords ws prev) ∧
    ∀ h ∈ (dedupWords ws prev).head?, h.map Char.toLower ≠ prev.map Char.toLower := by
  intro ws
  induction ws with
  | nil => intro prev; exact ⟨List.chain'_nil, by simp [dedupWords]⟩
  | cons w rest ih =>
    intro prev
    simp only [dedupWords]
    split
    · exact ih prev
    · rename_i hne
      have hne' : w.map Char.toLower ≠ prev.map Char.toLower := by
        simpa using hne
      obtain ⟨hch, hhd⟩ := ih w
      refine ⟨List.chain'_cons'.mpr ⟨fun h hh => (hhd h hh).symm, hch⟩, ?_⟩
      intro h hh
      simp only [List.head?_cons, Option.mem_def, Option.some.injEq] at hh
      rw [← hh]
      exact hne'

theorem mem_of_getLast? {l : List Char} {x : Char} (h : l.getLast? = some x) : x ∈ l := by
  obtain ⟨hne, hx⟩ := List.mem_getLast?_eq_getLast (Option.mem_def.mpr h)
  rw [hx]
  exact List.getLast_mem hne

theorem joinSpace_head? (w : List Char) (rest : List (List Char)) (hw : w ≠ []) :
    (joinSpace (w :: rest)).head? = w.head? := by
  cases rest with
  | nil => rfl
  | cons v rest' =>
    cases w with
    | nil => exact absurd rfl hw
    | cons c w₂ => rfl

theorem joinSpace_ne_nil (w : List Char) (rest : List (List Char)) (hw : w ≠ []) :
    joinSpace (w :: rest) ≠ [] := by
  cases rest with
  | nil => exact hw
  | cons v rest' =>
    cases w with
    | nil => exact absurd rfl hw
    | cons c w₂ => simp [joinSpace]

theorem chain'_nospace_of_all : ∀ (w : List Char), (∀ c ∈ w, isPySpace c = false) →
    List.Chain' noTwoSpaces w := by
  intro w
  induction w with
  | nil => intro _; exact List.chain'_nil
  | cons c rest ih =>
    intro h
    refine List.chain'_cons'.mpr ⟨?_, ih (fun x hx => h x (List.mem_cons_of_mem _ hx))⟩
    intro y _
    intro hcon
    rw [h c (List.mem_cons_self _ _)] at hcon
    exact Bool.noConfusion hcon.1

theorem joinSpace_chain : ∀ (ws : List (List Char)), (∀ w ∈ ws, goodWord w) →
    List.Chain' noTwoSpaces (joinSpace ws) := by
  intro ws
  induction ws with
  | nil => intro _; exact List.chain'_nil
  | cons w rest ih =>
    intro hg
    obtain ⟨hwne, hwns⟩ := hg w (List.mem_cons_self _ _)
    cases rest with
    | nil => exact chain'_nospace_of_all w hwns
    | cons v rest' =>
      have hrest : ∀ x ∈ v :: rest', goodWord x := fun x hx => hg x (List.mem_cons_of_mem _ hx)
      have hvne : v ≠ [] := (hrest v (List.mem_cons_self _ _)).1
      show List.Chain' noTwoSpaces (w ++ ' ' :: joinSpace (v :: rest'))
      refine List.Chain'.append (chain'_nospace_of_all w hwns) ?_ ?_
      · refine List.chain'_cons'.mpr ⟨?_, ih hrest⟩
        intro y hy
        have hyh : (joinSpace (v :: rest')).head? = v.head? := joinSpace_head? v rest' hvne
        rw [hyh] at hy
        have hyv : y ∈ v := by
          cases v with
          | nil => exact absurd rfl hvne
          | cons a b =>
            have ha : a = y := by simpa using hy
            rw [← ha]; exact List.mem_cons_self _ _
        intro hcon
        rw [(hrest v (List.mem_cons_self _ _)).2 y hyv] at hcon
        exact Bool.noConfusion hcon.2
      · intro x hx y hy
        have hxw : x ∈ w := mem_of_getLast? (Option.mem_def.mp hx)
        intro hcon
        rw [hwns x hxw] at hcon
        exact Bool.noConfusion hcon.1

theorem joinSpace_getLast_nospace : ∀ (ws : List (List Char)),
    (∀ w ∈ ws, goodWord w) → ∀ c, (joinSpace ws).getLast? = some c →
    isPySpace c = false := by
  intro ws
  induction ws with
  | nil => intro _ c hc; cases hc
  | cons w rest ih =>
    intro hg c hc
    obtain ⟨hwne, hwns⟩ := hg w (List.mem_cons_self _ _)
    cases rest with
    | nil => exact hwns c (mem_of_getLast? hc)
    | cons v rest' =>
      have hrest : ∀ x ∈ v :: rest', goodWord x := fun x hx => hg x (List.mem_cons_of_mem _ hx)
      have hvne : v ≠ [] := (hrest v (List.mem_cons_self _ _)).1
      have hJne : joinSpace (v :: rest') ≠ [] := joinSpace_ne_nil v rest' hvne
      rw [show joinSpace (w :: v :: rest') = w ++ ' ' :: joinSpace (v :: rest') from rfl,
        List.getLast?_append_cons,
        show (' ' :: joinSpace (v :: rest')) = [' '] ++ joinSpace (v :: rest') from rfl,
        List.getLast?_append_of_ne_nil _ hJne] at hc
      exact ih hrest c hc

theorem takeWhile_append_cons {p : Char → Bool} (b : Char) (t : List Char)
    (hb : p b = false) : ∀ (w : List Char), (∀ c ∈ w, p c = true) →
    (w ++ b :: t).takeWhile p = w := by
  intro w
  induction w with
  | nil => intro _; simp [List.takeWhile_cons, hb]
  | cons c w₂ ih =>
    intro h
    rw [List.cons_append, List.takeWhile_cons, h c (List.mem_cons_self _ _)]
    simp only [if_true]
    rw [ih (fun x hx => h x (List.mem_cons_of_mem _ hx))]

theorem pySplitAux_congr (fuel : Nat) (s t : List Char)
    (h : s.dropWhile isPySpace = t.dropWhile isPySpace) :
    pySplitAux (fuel + 1) s = pySplitAux (fuel + 1) t := by
  simp only [pySplitAux, h]

theorem pySplitAux_joinSpace : ∀ (ws : List (List Char)),
    (∀ w ∈ ws, goodWord w) → ∀ (fuel : Nat), (joinSpace ws).length < fuel →
    pySplitAux fuel (joinSpace ws) = ws := by
  intro ws
  induction ws with
  | nil => intro _ fuel _; exact pySplitAux_nil fuel
  | cons w rest ih =>
    intro hg fuel hf
    obtain ⟨hwne, hwns⟩ := hg w (List.mem_cons_self _ _)
    cases fuel with
    | zero => exact absurd hf (by omega)
    | succ f =>
      cases hwe : w with
      | nil => exact absurd hwe hwne
      | cons c w₂ =>
        subst hwe
        have hc : isPySpace c = false := hwns c (List.mem_cons_self _ _)
        cases rest with
        | nil =>
          show pySplitAux (f + 1) (c :: w₂) = [c :: w₂]
          simp only [pySplitAux, List.dropWhile_cons, hc, Bool.false_eq_true, if_false]
          rw [List.takeWhile_eq_self_iff.mpr (by intro x hx; simp [hwns x hx]),
            List.drop_length, pySplitAux_nil]
        | cons v rest' =>
          have hrest : ∀ x ∈ v :: rest', goodWord x :=
            fun x hx => hg x (List.mem_cons_of_mem _ hx)
          have hJ : (joinSpace (v :: rest')).length < f := by
            have : (joinSpace ((c :: w₂) :: v :: rest')).length =
                (c :: w₂).length + 1 + (joinSpace (v :: rest')).length := by
              show ((c :: w₂) ++ ' ' :: joinSpace (v :: rest')).length = _
              simp [List.length_append]
              omega
            omega
          obtain ⟨f', hf'⟩ : ∃ f', f = f' + 1 := by
            cases f with
            | zero => exact absurd hJ (by omega)
            | succ f' => exact ⟨f', rfl⟩
          show pySplitAux (f + 1) ((c :: w₂) ++ ' ' :: joinSpace (v :: rest')) = _
          simp only [pySplitAux, List.cons_append, List.dropWhile_cons, hc,
            Bool.false_eq_true, if_false]
          rw [show (c :: (w₂ ++ ' ' :: joinSpace (v :: rest'))) =
              ((c :: w₂) ++ ' ' :: joinSpace (v :: rest')) from rfl]
          rw [takeWhile_append_cons ' ' (joinSpace (v :: rest')) (by rfl) (c :: w₂)
            (by intro x hx; simp [hwns x hx])]
          rw [List.drop_left]
          rw [hf']
          rw [pySplitAux_congr f' (' ' :: joinSpace (v :: rest')) (joinSpace (v :: rest'))
            (by rw [List.dropWhile_cons]; simp [isPySpace])]
          rw [ih hrest (f' + 1) (by omega)]

theorem pySplit_joinSpace (ws : List (List Char)) (hg : ∀ w ∈ ws, goodWord w) :
    pySplit (joinSpace ws) = ws :=
  pySplitAux_joinSpace ws hg _ (by omega)

theorem pyStrip_joinSpace (ws : List (List Char)) (hg : ∀ w ∈ ws, goodWord w) :
    pyStrip (joinSpace ws) = joinSpace ws := by
  cases ws with
  | nil => rfl
  | cons w rest =>
    have hwne : w ≠ [] := (hg w (List.mem_cons_self _ _)).1
    unfold pyStrip
    rw [show pyLStrip (joinSpace (w :: rest)) = joinSpace (w :: rest) from
      dropWhile_head_false (by
        intro x hx
        rw [joinSpace_head? w rest hwne] at hx
        refine (hg w (List.mem_cons_self _ _)).2 x ?_
        cases w with
        | nil => exact absurd rfl hwne
        | cons a b =>
          have ha : a = x := by simpa using hx
          rw [← ha]; exact List.mem_cons_self _ _)]
    exact pyRStripWith_id (fun x hx => joinSpace_getLast_nospace (w :: rest) hg x hx)

/-- C8: for every input string, the cleaned text contains no run of two or
more whitespace characters (no two adjacent characters are both whitespace),
and no two identical consecutive tokens under case-insensitive comparison
(the tokens being the `str.split()` words of the output). -/
theorem clean_text_enhanced_spec (text : List Char) :
    List.Chain' noTwoSpaces (clean_text_enhanced text) ∧
    List.Chain' (fun w v : List Char => w.map Char.toLower ≠ v.map Char.toLower)
      (pySplit (clean_text_enhanced text)) := by
  unfold clean_text_enhanced
  set t₃ := ((removeBoilerAux ((collapseWsAux (text.length + 1) text).length + 1)
    (collapseWsAux (text.length + 1) text)).map
    (fun c => if isKeptChar c then c else ' ')) with ht₃
  set words₂ := (pySplit t₃).filter
    (fun w => decide (2 < w.length) || important_short_words.contains (w.map Char.toLower))
    with hw₂
  set dws := dedupWords words₂ [] with hdws
  have hgood : ∀ w ∈ dws, goodWord w := by
    intro w hw
    have h₁ : w ∈ words₂ := dedupWords_subset words₂ [] w hw
    have h₂ : w ∈ pySplit t₃ := List.mem_of_mem_filter h₁
    exact pySplit_good t₃ w h₂
  rw [pyStrip_joinSpace dws hgood]
  constructor
  · exact joinSpace_chain dws hgood
  · rw [pySplit_joinSpace dws hgood]
    exact (dedupWords_chain words₂ []).1

/-! ### C4: facts about the match enumeration -/

theorem matchRes_mono : ∀ (f g : Nat), f ≤ g → ∀ (r : Rgx) (s : List Char)
    (x : Nat × Option (List Char)), x ∈ matchRes f r s → x ∈ matchRes g r s := by
  intro f
  induction f with
  | zero => intro g _ r s x hx; cases hx
  | succ f ih =>
    intro g hfg r s x hx
    obtain ⟨g', rfl⟩ : ∃ g', g = g' + 1 := ⟨g - 1, by omega⟩
    have hfg' : f ≤ g' := by omega
    cases r with
    | eps => simpa [matchRes] using (by simpa [matchRes] using hx : x = (0, none))
    | lit ch =>
      simp only [matchRes] at hx ⊢
      exact hx
    | cls p =>
      simp only [matchRes] at hx ⊢
      exact hx
    | grp r₁ =>
      simp only [matchRes, List.mem_map] at hx ⊢
      obtain ⟨y, hy, rfl⟩ := hx
      exact ⟨y, ih g' hfg' r₁ s y hy, rfl⟩
    | alt r₁ r₂ =>
      simp only [matchRes, List.mem_append] at hx ⊢
      rcases hx with h | h
      · exact .inl (ih g' hfg' r₁ s x h)
      · exact .inr (ih g' hfg' r₂ s x h)
    | cat r₁ r₂ =>
      simp only [matchRes, List.mem_flatMap, List.mem_map] at hx ⊢
      obtain ⟨y, hy, z, hz, rfl⟩ := hx
      exact ⟨y, ih g' hfg' r₁ s y hy, z, ih g' hfg' r₂ _ z hz, rfl⟩
    | star r₁ =>
      simp only [matchRes, List.mem_append, List.mem_flatMap, List.mem_filter,
        List.mem_map] at hx ⊢
      rcases hx with ⟨y, ⟨hy, hy0⟩, z, hz, rfl⟩ | h
      · exact .inl ⟨y, ⟨ih g' hfg' r₁ s y hy, hy0⟩, z, ih g' hfg' (.star r₁) _ z hz, rfl⟩
      · exact .inr h

theorem matchRes_len_le : ∀ (fuel : Nat) (r : Rgx) (s : List Char)
    (x : Nat × Option (List Char)), x ∈ matchRes fuel r s → x.1 ≤ s.length := by
  intro fuel
  induction fuel with
  | zero => intro r s x hx; cases hx
  | succ f ih =>
    intro r s x hx
    cases r with
    | eps =>
      have : x = (0, none) := by simpa [matchRes] using hx
      rw [this]; exact Nat.zero_le _
    | lit ch =>
      cases s with
      | nil => simp [matchRes] at hx
      | cons a t =>
        simp only [matchRes] at hx
        split at hx
        · have : x = (1, none) := by simpa using hx
          rw [this]; simp
        · cases hx
    | cls p =>
      cases s with
      | nil => simp [matchRes] at hx
      | cons a t =>
        simp only [matchRes] at hx
        split at hx
        · have : x = (1, none) := by simpa using hx
          rw [this]; simp
        · cases hx
    | grp r₁ =>
      simp only [matchRes, List.mem_map] at hx
      obtain ⟨y, hy, rfl⟩ := hx
      exact ih r₁ s y hy
    | alt r₁ r₂ =>
      simp only [matchRes, List.mem_append] at hx
      rcases hx with h | h
      · exact ih r₁ s x h
      · exact ih r₂ s x h
    | cat r₁ r₂ =>
      simp only [matchRes, List.mem_flatMap, List.mem_map] at hx
      obtain ⟨y, hy, z, hz, rfl⟩ := hx
      have h₁ := ih r₁ s y hy
      have h₂ := ih r₂ (s.drop y.1) z hz
      simp only [List.length_drop] at h₂
      simp only []
      omega
    | star r₁ =>
      simp only [matchRes, List.mem_append, List.mem_flatMap, List.mem_filter,
        List.mem_map] at hx
      rcases hx with ⟨y, ⟨hy, _⟩, z, hz, rfl⟩ | h
      · have h₁ := ih r₁ s y hy
        have h₂ := ih (.star r₁) (s.drop y.1) z hz
        simp only [List.length_drop] at h₂
        simp only []
        omega
      · simp only [List.mem_singleton] at h
        rw [h]; exact Nat.zero_le _

theorem matchRes_minLen : ∀ (fuel : Nat) (r : Rgx) (s : List Char)
    (x : Nat × Option (List Char)), x ∈ matchRes fuel r s → r.minLen ≤ x.1 := by
  intro fuel
  induction fuel with
  | zero => intro r s x hx; cases hx
  | succ f ih =>
    intro r s x hx
    cases r with
    | eps =>
      have : x = (0, none) := by simpa [matchRes] using hx
      rw [this]; exact Nat.le_refl _
    | lit ch =>
      cases s with
      | nil => simp [matchRes] at hx
      | cons a t =>
        simp only [matchRes] at hx
        split at hx
        · have : x = (1, none) := by simpa using hx
          rw [this]; exact Nat.le_refl _
        · cases hx
    | cls p =>
      cases s with
      | nil => simp [matchRes] at hx
      | cons a t =>
        simp only [matchRes] at hx
        split at hx
        · have : x = (1, none) := by simpa using hx
          rw [this]; exact Nat.le_refl _
        · cases hx
    | grp r₁ =>
      simp only [matchRes, List.mem_map] at hx
      obtain ⟨y, hy, rfl⟩ := hx
      exact ih r₁ s y hy
    | alt r₁ r₂ =>
      simp only [matchRes, List.mem_append] at hx
      simp only [Rgx.minLen]
      rcases hx with h | h
      · exact le_trans (Nat.min_le_left _ _) (ih r₁ s x h)
      · exact le_trans (Nat.min_le_right _ _) (ih r₂ s x h)
    | cat r₁ r₂ =>
      simp only [matchRes, List.mem_flatMap, List.mem_map] at hx
      obtain ⟨y, hy, z, hz, rfl⟩ := hx
      have h₁ := ih r₁ s y hy
      have h₂ := ih r₂ (s.drop y.1) z hz
      simp only [Rgx.minLen]
      omega
    | star r₁ =>
      simp only [Rgx.minLen]
      exact Nat.zero_le _

theorem matchRes_noGrp : ∀ (fuel : Nat) (r : Rgx) (s : List Char)
    (x : Nat × Option (List Char)), r.noGrp = true → x ∈ matchRes fuel r s →
    x.2 = none := by
  intro fuel
  induction fuel with
  | zero => intro r s x _ hx; cases hx
  | succ f ih =>
    intro r s x hg hx
    cases r with
    | eps =>
      have : x = (0, none) := by simpa [matchRes] using hx
      rw [this]
    | lit ch =>
      cases s with
      | nil => simp [matchRes] at hx
      | cons a t =>
        simp only [matchRes] at hx
        split at hx
        · have : x = (1, none) := by simpa using hx
          rw [this]
        · cases hx
    | cls p =>
      cases s with
      | nil => simp [matchRes] at hx
      | cons a t =>
        simp only [matchRes] at hx
        split at hx
        · have : x = (1, none) := by simpa using hx
          rw [this]
        · cases hx
    | grp r₁ => simp [Rgx.noGrp] at hg
    | alt r₁ r₂ =>
      simp only [Rgx.noGrp, Bool.and_eq_true] at hg
      simp only [matchRes, List.mem_append] at hx
      rcases hx with h | h
      · exact ih r₁ s x hg.1 h
      · exact ih r₂ s x hg.2 h
    | cat r₁ r₂ =>
      simp only [Rgx.noGrp, Bool.and_eq_true] at hg
      simp only [matchRes, List.mem_flatMap, List.mem_map] at hx
      obtain ⟨y, hy, z, hz, rfl⟩ := hx
      have h₁ := ih r₁ s y hg.1 hy
      have h₂ := ih r₂ (s.drop y.1) z hg.2 hz
      simp only [combineCap, h₁, h₂]
    | star r₁ =>
      have hg' : r₁.noGrp = true := by simpa [Rgx.noGrp] using hg
      simp only [matchRes, List.mem_append, List.mem_flatMap, List.mem_filter,
        List.mem_map] at hx
      rcases hx with ⟨y, ⟨hy, _⟩, z, hz, rfl⟩ | h
      · have h₁ := ih r₁ s y hg' hy
        have h₂ := ih (.star r₁) (s.drop y.1) z (by simpa [Rgx.noGrp] using hg') hz
        simp only [combineCap, h₁, h₂]
      · simp only [List.mem_singleton] at h
        rw [h]

theorem matchRes_lit_inv (fuel : Nat) (ch : Char) (s : List Char)
    (x : Nat × Option (List Char)) (hx : x ∈ matchRes fuel (.lit ch) s) :
    x = (1, none) ∧ ∃ t, s = ch :: t := by
  cases fuel with
  | zero => cases hx
  | succ f =>
    cases s with
    | nil => simp [matchRes] at hx
    | cons a t =>
      simp only [matchRes] at hx
      split at hx
      · rename_i ha
        exact ⟨by simpa using hx, t, by rw [ha]⟩
      · cases hx

theorem matchRes_cls_inv (fuel : Nat) (p : Char → Bool) (s : List Char)
    (x : Nat × Option (List Char)) (hx : x ∈ matchRes fuel (.cls p) s) :
    x = (1, none) ∧ ∃ a t, s = a :: t ∧ p a = true := by
  cases fuel with
  | zero => cases hx
  | succ f =>
    cases s with
    | nil => simp [matchRes] at hx
    | cons a t =>
      simp only [matchRes] at hx
      split at hx
      · rename_i ha
        exact ⟨by simpa using hx, a, t, rfl, ha⟩
      · cases hx

theorem matchRes_eps_inv (fuel : Nat) (s : List Char) (x : Nat × Option (List Char))
    (hx : x ∈ matchRes fuel .eps s) : x = (0, none) := by
  cases fuel with
  | zero => cases hx
  | succ f => simpa [matchRes] using hx

theorem matchRes_cat_inv (fuel : Nat) (r₁ r₂ : Rgx) (s : List Char)
    (x : Nat × Option (List Char)) (hx : x ∈ matchRes fuel (.cat r₁ r₂) s) :
    ∃ f' l₁ c₁ l₂ c₂, fuel = f' + 1 ∧ (l₁, c₁) ∈ matchRes f' r₁ s ∧
      (l₂, c₂) ∈ matchRes f' r₂ (s.drop l₁) ∧ x = (l₁ + l₂, combineCap c₁ c₂) := by
  cases fuel with
  | zero => cases hx
  | succ f =>
    simp only [matchRes, List.mem_flatMap, List.mem_map] at hx
    obtain ⟨y, hy, z, hz, rfl⟩ := hx
    exact ⟨f, y.1, y.2, z.1, z.2, rfl, hy, hz, rfl⟩

theorem matchRes_alt_inv (fuel : Nat) (r₁ r₂ : Rgx) (s : List Char)
    (x : Nat × Option (List Char)) (hx : x ∈ matchRes fuel (.alt r₁ r₂) s) :
    ∃ f', fuel = f' + 1 ∧ (x ∈ matchRes f' r₁ s ∨ x ∈ matchRes f' r₂ s) := by
  cases fuel with
  | zero => cases hx
  | succ f =>
    simp only [matchRes, List.mem_append] at hx
    exact ⟨f, rfl, hx⟩

/-- Any match of a literal-string regex is the whole string, capture-free,
and the string is a prefix of the subject. -/
theorem matchRes_strRgx_inv : ∀ (w : List Char) (fuel : Nat) (s : List Char)
    (x : Nat × Option (List Char)), x ∈ matchRes fuel (strRgx w) s →
    x = (w.length, none) ∧ ∃ t, s = w ++ t := by
  intro w
  induction w with
  | nil =>
    intro fuel s x hx
    have := matchRes_eps_inv fuel s x hx
    exact ⟨by simpa using this, s, rfl⟩
  | cons ch w' ih =>
    intro fuel s x hx
    obtain ⟨f', l₁, c₁, l₂, c₂, rfl, h₁, h₂, rfl⟩ := matchRes_cat_inv fuel _ _ s x hx
    obtain ⟨he, t, rfl⟩ := matchRes_lit_inv f' ch s _ h₁
    have hl₁ : l₁ = 1 ∧ c₁ = (none : Option (List Char)) := by
      constructor
      · exact congrArg Prod.fst he
      · exact congrArg Prod.snd he
    obtain ⟨rfl, rfl⟩ := hl₁
    obtain ⟨he', t', ht'⟩ := ih f' ((ch :: t).drop 1) _ h₂
    have hl₂ : l₂ = w'.length ∧ c₂ = (none : Option (List Char)) := by
      constructor
      · exact congrArg Prod.fst he'
      · exact congrArg Prod.snd he'
    obtain ⟨rfl, rfl⟩ := hl₂
    simp only [List.drop_one, List.tail_cons] at ht'
    refine ⟨?_, t', ?_⟩
    · simp [combineCap, List.length_cons]
      omega
    · rw [List.cons_append, ← ht']

/-! ### `MatchFrom` introduction rules -/

theorem matchFrom_mono {n m : Nat} {r : Rgx} {s : List Char}
    {x : Nat × Option (List Char)} (h : MatchFrom n r s x) (hnm : n ≤ m) :
    MatchFrom m r s x :=
  fun g hg => h g (le_trans hnm hg)

theorem matchFrom_eps (s : List Char) : MatchFrom 1 .eps s (0, none) := by
  intro g hg
  obtain ⟨g', rfl⟩ : ∃ g', g = g' + 1 := ⟨g - 1, by omega⟩
  simp [matchRes]

theorem matchFrom_lit (ch : Char) (t : List Char) :
    MatchFrom 1 (.lit ch) (ch :: t) (1, none) := by
  intro g hg
  obtain ⟨g', rfl⟩ : ∃ g', g = g' + 1 := ⟨g - 1, by omega⟩
  simp [matchRes]

theorem matchFrom_cls (p : Char → Bool) (ch : Char) (t : List Char) (hp : p ch = true) :
    MatchFrom 1 (.cls p) (ch :: t) (1, none) := by
  intro g hg
  obtain ⟨g', rfl⟩ : ∃ g', g = g' + 1 := ⟨g - 1, by omega⟩
  simp [matchRes, hp]

theorem matchFrom_alt_left {n : Nat} {r₁ : Rgx} (r₂ : Rgx) {s : List Char}
    {x : Nat × Option (List Char)} (h : MatchFrom n r₁ s x) :
    MatchFrom (n + 1) (.alt r₁ r₂) s x := by
  intro g hg
  obtain ⟨g', rfl⟩ : ∃ g', g = g' + 1 := ⟨g - 1, by omega⟩
  simp only [matchRes, List.mem_append]
  exact .inl (h g' (by omega))

theorem matchFrom_alt_right {n : Nat} (r₁ : Rgx) {r₂ : Rgx} {s : List Char}
    {x : Nat × Option (List Char)} (h : MatchFrom n r₂ s x) :
    MatchFrom (n + 1) (.alt r₁ r₂) s x := by
  intro g hg
  obtain ⟨g', rfl⟩ : ∃ g', g = g' + 1 := ⟨g - 1, by omega⟩
  simp only [matchRes, List.mem_append]
  exact .inr (h g' (by omega))

theorem matchFrom_cat {n₁ n₂ : Nat} {r₁ r₂ : Rgx} {s : List Char} {l₁ l₂ : Nat}
    {c₁ c₂ : Option (List Char)} (h₁ : MatchFrom n₁ r₁ s (l₁, c₁))
    (h₂ : MatchFrom n₂ r₂ (s.drop l₁) (l₂, c₂)) :
    MatchFrom (max n₁ n₂ + 1) (.cat r₁ r₂) s (l₁ + l₂, combineCap c₁ c₂) := by
  intro g hg
  obtain ⟨g', rfl⟩ : ∃ g', g = g' + 1 := ⟨g - 1, by omega⟩
  simp only [matchRes, List.mem_flatMap, List.mem_map]
  refine ⟨(l₁, c₁), h₁ g' ?_, (l₂, c₂), h₂ g' ?_, rfl⟩
  · have := Nat.le_max_left n₁ n₂; omega
  · have := Nat.le_max_right n₁ n₂; omega

theorem matchFrom_star_nil (r : Rgx) (s : List Char) :
    MatchFrom 1 (.star r) s (0, none) := by
  intro g hg
  obtain ⟨g', rfl⟩ : ∃ g', g = g' + 1 := ⟨g - 1, by omega⟩
  simp [matchRes]

theorem matchFrom_star_cons {n₁ n₂ : Nat} {r : Rgx} {s : List Char} {l₁ l₂ : Nat}
    {c₁ c₂ : Option (List Char)} (h₁ : MatchFrom n₁ r s (l₁, c₁)) (hl : 0 < l₁)
    (h₂ : MatchFrom n₂ (.star r) (s.drop l₁) (l₂, c₂)) :
    MatchFrom (max n₁ n₂ + 1) (.star r) s (l₁ + l₂, combineCap c₁ c₂) := by
  intro g hg
  obtain ⟨g', rfl⟩ : ∃ g', g = g' + 1 := ⟨g - 1, by omega⟩
  simp only [matchRes, List.mem_append, List.mem_flatMap, List.mem_filter, List.mem_map]
  refine .inl ⟨(l₁, c₁), ⟨h₁ g' ?_, by simpa using hl⟩, (l₂, c₂), h₂ g' ?_, rfl⟩
  · have := Nat.le_max_left n₁ n₂; omega
  · have := Nat.le_max_right n₁ n₂; omega

theorem matchFrom_strRgx : ∀ (w t : List Char),
    MatchFrom (w.length + 1) (strRgx w) (w ++ t) (w.length, none) := by
  intro w
  induction w with
  | nil => intro t; exact matchFrom_eps t
  | cons ch w' ih =>
    intro t
    have h₁ : MatchFrom 1 (.lit ch) (ch :: (w' ++ t)) (1, none) := matchFrom_lit ch _
    have h₂ : MatchFrom (w'.length + 1) (strRgx w')
        ((ch :: (w' ++ t)).drop 1) (w'.length, none) := by
      simpa using ih t
    have h₃ := matchFrom_cat h₁ h₂
    have he : (1 + w'.length, combineCap none none) =
        ((ch :: w').length, (none : Option (List Char))) := by
      simp [combineCap, Nat.add_comm]
    rw [he] at h₃
    refine matchFrom_mono h₃ ?_
    simp only [List.length_cons]
    omega

/-! ### Head/last character discipline of matches -/

theorem take_head?_pos (s : List Char) (n : Nat) (hn : 0 < n) :
    (s.take n).head? = s.head? := by
  cases s with
  | nil => simp
  | cons a t =>
    cases n with
    | zero => omega
    | succ m => simp

theorem take_add_getLast? (s : List Char) (l₁ l₂ : Nat) (h2 : 0 < l₂)
    (hle : l₂ ≤ (s.drop l₁).length) :
    (s.take (l₁ + l₂)).getLast? = ((s.drop l₁).take l₂).getLast? := by
  rw [List.take_add]
  refine List.getLast?_append_of_ne_nil _ ?_
  intro hc
  have hlen : ((s.drop l₁).take l₂).length = 0 := by rw [hc]; rfl
  rw [List.length_take] at hlen
  omega

theorem headOK_eps (P : Char → Prop) : HeadOK P .eps := by
  intro fuel s l c hm
  exact .inl (congrArg Prod.fst (matchRes_eps_inv fuel s _ hm))

theorem lastOK_eps (P : Char → Prop) : LastOK P .eps := by
  intro fuel s l c hm
  exact .inl (congrArg Prod.fst (matchRes_eps_inv fuel s _ hm))

theorem headOK_lit (P : Char → Prop) (ch : Char) (hP : P ch) : HeadOK P (.lit ch) := by
  intro fuel s l c hm
  obtain ⟨he, t, rfl⟩ := matchRes_lit_inv fuel ch s _ hm
  have hl : l = 1 := congrArg Prod.fst he
  subst hl
  exact .inr ⟨ch, by simp, hP⟩

theorem lastOK_lit (P : Char → Prop) (ch : Char) (hP : P ch) : LastOK P (.lit ch) := by
  intro fuel s l c hm
  obtain ⟨he, t, rfl⟩ := matchRes_lit_inv fuel ch s _ hm
  have hl : l = 1 := congrArg Prod.fst he
  subst hl
  exact .inr ⟨ch, by simp, hP⟩

theorem headOK_alt {P : Char → Prop} {r₁ r₂ : Rgx} (h₁ : HeadOK P r₁)
    (h₂ : HeadOK P r₂) : HeadOK P (.alt r₁ r₂) := by
  intro fuel s l c hm
  obtain ⟨f', rfl, hm'⟩ := matchRes_alt_inv fuel r₁ r₂ s _ hm
  rcases hm' with h | h
  · exact h₁ f' s l c h
  · exact h₂ f' s l c h

theorem lastOK_alt {P : Char → Prop} {r₁ r₂ : Rgx} (h₁ : LastOK P r₁)
    (h₂ : LastOK P r₂) : LastOK P (.alt r₁ r₂) := by
  intro fuel s l c hm
  obtain ⟨f', rfl, hm'⟩ := matchRes_alt_inv fuel r₁ r₂ s _ hm
  rcases hm' with h | h
  · exact h₁ f' s l c h
  · exact h₂ f' s l c h

theorem headOK_strRgx (P : Char → Prop) (w : List Char)
    (h : ∀ ch, w.head? = some ch → P ch) : HeadOK P (strRgx w) := by
  intro fuel s l c hm
  obtain ⟨he, t, rfl⟩ := matchRes_strRgx_inv w fuel _ _ hm
  have hl : l = w.length := congrArg Prod.fst he
  subst hl
  cases w with
  | nil => exact .inl rfl
  | cons ch w' =>
    refine .inr ⟨ch, ?_, h ch rfl⟩
    rw [take_head?_pos _ _ (by simp)]
    rfl

theorem lastOK_strRgx (P : Char → Prop) (w : List Char)
    (h : ∀ ch, w.getLast? = some ch → P ch) : LastOK P (strRgx w) := by
  intro fuel s l c hm
  obtain ⟨he, t, rfl⟩ := matchRes_strRgx_inv w fuel _ _ hm
  have hl : l = w.length := congrArg Prod.fst he
  subst hl
  cases hw : w.getLast? with
  | none =>
    have : w = [] := by simpa using hw
    rw [this]
    exact .inl rfl
  | some ch =>
    refine .inr ⟨ch, ?_, h ch hw⟩
    rw [List.take_left]
    exact hw

theorem headOK_cat_left {P : Char → Prop} {r₁ : Rgx} (r₂ : Rgx) (h₁ : HeadOK P r₁)
    (hm : 1 ≤ r₁.minLen) : HeadOK P (.cat r₁ r₂) := by
  intro fuel s l c hmem
  obtain ⟨f', l₁, c₁, l₂, c₂, rfl, hr₁, hr₂, he⟩ := matchRes_cat_inv _ r₁ r₂ s _ hmem
  have hl : l = l₁ + l₂ := congrArg Prod.fst he
  subst hl
  have hl₁ : 1 ≤ l₁ := le_trans hm (by
    simpa using matchRes_minLen f' r₁ s (l₁, c₁) hr₁)
  rcases h₁ f' s l₁ c₁ hr₁ with h | ⟨ch, hch, hP⟩
  · omega
  · refine .inr ⟨ch, ?_, hP⟩
    rw [take_head?_pos _ _ (by omega), ← take_head?_pos s l₁ (by omega)]
    exact hch

theorem headOK_cat_both {P : Char → Prop} {r₁ r₂ : Rgx} (h₁ : HeadOK P r₁)
    (h₂ : HeadOK P r₂) : HeadOK P (.cat r₁ r₂) := by
  intro fuel s l c hmem
  obtain ⟨f', l₁, c₁, l₂, c₂, rfl, hr₁, hr₂, he⟩ := matchRes_cat_inv _ r₁ r₂ s _ hmem
  have hl : l = l₁ + l₂ := congrArg Prod.fst he
  subst hl
  cases Nat.eq_zero_or_pos l₁ with
  | inr hpos =>
    rcases h₁ f' s l₁ c₁ hr₁ with h | ⟨ch, hch, hP⟩
    · omega
    · refine .inr ⟨ch, ?_, hP⟩
      rw [take_head?_pos _ _ (by omega), ← take_head?_pos s l₁ (by omega)]
      exact hch
  | inl hz =>
    subst hz
    rcases h₂ f' (s.drop 0) l₂ c₂ hr₂ with h | ⟨ch, hch, hP⟩
    · exact .inl (by omega)
    · refine .inr ⟨ch, ?_, hP⟩
      rw [List.drop_zero] at hch
      simpa using hch

theorem lastOK_cat_right {P : Char → Prop} (r₁ : Rgx) {r₂ : Rgx} (h₂ : LastOK P r₂)
    (hm : 1 ≤ r₂.minLen) : LastOK P (.cat r₁ r₂) := by
  intro fuel s l c hmem
  obtain ⟨f', l₁, c₁, l₂, c₂, rfl, hr₁, hr₂, he⟩ := matchRes_cat_inv _ r₁ r₂ s _ hmem
  have hl : l = l₁ + l₂ := congrArg Prod.fst he
  subst hl
  have hl₂ : 1 ≤ l₂ := le_trans hm (by
    simpa using matchRes_minLen f' r₂ (s.drop l₁) (l₂, c₂) hr₂)
  have hle : l₂ ≤ (s.drop l₁).length := by
    simpa using matchRes_len_le f' r₂ (s.drop l₁) (l₂, c₂) hr₂
  rcases h₂ f' (s.drop l₁) l₂ c₂ hr₂ with h | ⟨ch, hch, hP⟩
  · omega
  · refine .inr ⟨ch, ?_, hP⟩
    rw [take_add_getLast? s l₁ l₂ (by omega) hle]
    exact hch

theorem lastOK_cat_both {P : Char → Prop} {r₁ r₂ : Rgx} (h₁ : LastOK P r₁)
    (h₂ : LastOK P r₂) : LastOK P (.cat r₁ r₂) := by
  intro fuel s l c hmem
  obtain ⟨f', l₁, c₁, l₂, c₂, rfl, hr₁, hr₂, he⟩ := matchRes_cat_inv _ r₁ r₂ s _ hmem
  have hl : l = l₁ + l₂ := congrArg Prod.fst he
  subst hl
  cases Nat.eq_zero_or_pos l₂ with
  | inr hpos =>
    have hle : l₂ ≤ (s.drop l₁).length := by
      simpa using matchRes_len_le f' r₂ (s.drop l₁) (l₂, c₂) hr₂
    rcases h₂ f' (s.drop l₁) l₂ c₂ hr₂ with h | ⟨ch, hch, hP⟩
    · omega
    · refine .inr ⟨ch, ?_, hP⟩
      rw [take_add_getLast? s l₁ l₂ (by omega) hle]
      exact hch
  | inl hz =>
    subst hz
    rcases h₁ f' s l₁ c₁ hr₁ with h | ⟨ch, hch, hP⟩
    · exact .inl (by omega)
    · exact .inr ⟨ch, by simpa using hch, hP⟩

/-! ### Elements of `pyFindall` -/

theorem mem_of_head? {α : Type} {l : List α} {a : α} (h : l.head? = some a) : a ∈ l := by
  cases l with
  | nil => cases h
  | cons b t =>
    have hb : b = a := by simpa using h
    rw [← hb]
    exact List.mem_cons_self _ _

theorem pyFindallAux_mem : ∀ (fuel : Nat) (r : Rgx) (s m : List Char),
    m ∈ pyFindallAux r fuel s → ∃ s' lc,
      (matchRes (rgxFuel r s') r s').head? = some lc ∧ m = lc.2.getD (s'.take lc.1) := by
  intro fuel
  induction fuel with
  | zero => intro r s m hm; cases hm
  | succ f ih =>
    intro r s m hm
    simp only [pyFindallAux] at hm
    cases hh : (matchRes (rgxFuel r s) r s).head? with
    | none =>
      rw [hh] at hm
      cases s with
      | nil => cases hm
      | cons a rest => exact ih r rest m hm
    | some lc =>
      rw [hh] at hm
      rcases List.mem_cons.mp hm with he | hrest
      · exact ⟨s, lc, hh, he⟩
      · cases s with
        | nil => cases hrest
        | cons a rest => exact ih r _ m hrest

theorem pyFindallAux_ne_nil : ∀ (fuel : Nat) (r : Rgx) (s : List Char) (i : Nat),
    s.length < fuel → matchRes (rgxFuel r (s.drop i)) r (s.drop i) ≠ [] →
    pyFindallAux r fuel s ≠ [] := by
  intro fuel
  induction fuel with
  | zero => intro r s i hlen _; omega
  | succ f ih =>
    intro r s i hlen hne
    simp only [pyFindallAux]
    cases hh : (matchRes (rgxFuel r s) r s).head? with
    | some lc =>
      cases s with
      | nil => simp
      | cons a rest => simp
    | none =>
      have h0 : matchRes (rgxFuel r s) r s = [] := by
        cases hmr : matchRes (rgxFuel r s) r s with
        | nil => rfl
        | cons y ys => rw [hmr] at hh; cases hh
      cases s with
      | nil =>
        rw [List.drop_nil] at hne
        exact absurd h0 hne
      | cons a rest =>
        cases i with
        | zero =>
          rw [List.drop_zero] at hne
          exact absurd h0 hne
        | succ i' =>
          have hlen' : rest.length < f := by
            simp only [List.length_cons] at hlen
            omega
          have hne' : matchRes (rgxFuel r (rest.drop i')) r (rest.drop i') ≠ [] := by
            simpa using hne
          exact ih r rest i' hlen' hne'

/-- Every string `re.findall` reports for a group-free pattern whose minimum
match length exceeds 5 and whose matches start and end with non-stripped
characters survives `_extract_pattern_matches`' cleaning with length > 5. -/
theorem pyFindall_elem_good (r : Rgx) (hng : r.noGrp = true) (hmin : 5 < r.minLen)
    (hhead : HeadOK keepChar r) (hlast : LastOK keepChar r) :
    ∀ (s m : List Char), m ∈ pyFindall r s → cleanMatch m = m ∧ 5 < m.length := by
  intro s m hm
  obtain ⟨s', lc, hh, hme⟩ := pyFindallAux_mem _ r s m hm
  have hmem : lc ∈ matchRes (rgxFuel r s') r s' := mem_of_head? hh
  have hcap : lc.2 = none := matchRes_noGrp _ _ _ _ hng hmem
  have hml : m = s'.take lc.1 := by rw [hme, hcap]; rfl
  have hmem' : (lc.1, (none : Option (List Char))) ∈ matchRes (rgxFuel r s') r s' := by
    rw [← hcap]
    exact hmem
  have hl1 : r.minLen ≤ lc.1 := by simpa using matchRes_minLen _ r s' lc hmem
  have hl2 : lc.1 ≤ s'.length := by simpa using matchRes_len_le _ r s' lc hmem
  have hlen : m.length = lc.1 := by
    rw [hml, List.length_take]
    omega
  rcases hhead _ _ _ _ hmem' with h0 | ⟨ch₁, hch₁, hP₁⟩
  · omega
  rcases hlast _ _ _ _ hmem' with h0 | ⟨ch₂, hch₂, hP₂⟩
  · omega
  have hcm : cleanMatch m = m := by
    have hstrip : pyStrip m = m := by
      unfold pyStrip pyLStrip
      rw [dropWhile_head_false (fun c hc => by
        rw [hml] at hc
        rw [hch₁] at hc
        injection hc with hc
        rw [← hc]
        exact hP₁.1)]
      exact pyRStripWith_id (fun c hc => by
        rw [hml] at hc
        rw [hch₂] at hc
        injection hc with hc
        rw [← hc]
        exact hP₂.1)
    unfold cleanMatch
    rw [hstrip]
    exact pyRStripWith_id (fun c hc => by
      rw [hml] at hc
      rw [hch₂] at hc
      injection hc with hc
      rw [← hc]
      exact hP₂.2)
  exact ⟨hcm, by omega⟩

/-! ### Non-emptiness through `_extract_pattern_matches` -/

theorem processMatches_len_mono : ∀ (found acc : List (List Char)),
    acc.length ≤ (processMatches found acc).length := by
  intro found
  induction found with
  | nil => intro acc; exact le_refl _
  | cons m rest ih =>
    intro acc
    simp only [processMatches]
    split
    · split
      · simp
      · exact le_trans (by simp) (ih _)
    · exact ih acc

theorem foldl_processMatches_len (content : List Char) : ∀ (ps : List Rgx)
    (acc : List (List Char)),
    acc.length ≤
      (List.foldl (fun a p => processMatches (pyFindall p content) a) acc ps).length := by
  intro ps
  induction ps with
  | nil => intro acc; exact le_refl _
  | cons p ps' ih =>
    intro acc
    exact le_trans (processMatches_len_mono _ acc) (ih _)

theorem processMatches_ne_nil (found : List (List Char)) (hne : found ≠ [])
    (hall : ∀ m ∈ found, 5 < (cleanMatch m).length) : processMatches found [] ≠ [] := by
  obtain ⟨m, ms, rfl⟩ := List.exists_cons_of_ne_nil hne
  simp only [processMatches]
  rw [if_pos ⟨hall m (List.mem_cons_self _ _), by simp⟩]
  split
  · simp
  · have h := processMatches_len_mono ms ([] ++ [cleanMatch m])
    intro hc
    rw [hc] at h
    simp at h

theorem extract_pattern_matches_ne_nil (content : List Char) (p : Rgx) (ps : List Rgx)
    (hp : processMatches (pyFindall p content) [] ≠ []) :
    extract_pattern_matches content (p :: ps) ≠ [] := by
  unfold extract_pattern_matches
  intro hc
  have h1 := foldl_processMatches_len content ps (processMatches (pyFindall p content) [])
  have h0 : 0 < (processMatches (pyFindall p content) []).length := List.length_pos.mpr hp
  have hL : 0 <
      (List.foldl (fun a p => processMatches (pyFindall p content) a) [] (p :: ps)).length := by
    rw [List.foldl_cons]
    omega
  have hlen0 := congrArg List.length hc
  rw [List.length_take, List.length_nil] at hlen0
  rcases Nat.min_eq_zero_iff.mp hlen0 with h5 | hzz
  · omega
  · rw [List.foldl_cons] at hzz
    omega

/-! ### Concrete facts about the first growth and urgency patterns -/

theorem headOK_word (P : Char → Prop) (w : String) (ch : Char)
    (hw : (cs w).head? = some ch) (hP : P ch) : HeadOK P (word w) :=
  headOK_strRgx P (cs w) (fun ch' h => by
    rw [hw] at h
    injection h with h
    rwa [← h])

theorem lastOK_word (P : Char → Prop) (w : String) (ch : Char)
    (hw : (cs w).getLast? = some ch) (hP : P ch) : LastOK P (word w) :=
  lastOK_strRgx P (cs w) (fun ch' h => by
    rw [hw] at h
    injection h with h
    rwa [← h])

theorem lastOK_wordS (P : Char → Prop) (w : String) (ch : Char)
    (hw : (cs w).getLast? = some ch) (hP : P ch) (hs : P 's') : LastOK P (wordS w) :=
  lastOK_cat_both (lastOK_word P w ch hw hP)
    (lastOK_alt (lastOK_lit P 's' hs) (lastOK_eps P))

theorem growth_pat1_headOK : HeadOK keepChar growth_pat1 := by
  refine headOK_cat_left _ ?_ (by decide)
  exact headOK_alt (headOK_word _ "hiring" 'h' rfl (by exact ⟨rfl, rfl⟩))
    (headOK_alt (headOK_word _ "recruiting" 'r' rfl (by exact ⟨rfl, rfl⟩))
      (headOK_alt (headOK_word _ "adding" 'a' rfl (by exact ⟨rfl, rfl⟩))
        (headOK_word _ "expanding" 'e' rfl (by exact ⟨rfl, rfl⟩))))

theorem growth_pat1_lastOK : LastOK keepChar growth_pat1 := by
  refine lastOK_cat_right _ ?_ (by decide)
  refine lastOK_cat_right _ ?_ (by decide)
  refine lastOK_cat_right _ ?_ (by decide)
  exact lastOK_alt (lastOK_word _ "team" 'm' rfl (by exact ⟨rfl, rfl⟩))
    (lastOK_alt (lastOK_wordS _ "developer" 'r' rfl (by exact ⟨rfl, rfl⟩) (by exact ⟨rfl, rfl⟩))
      (lastOK_alt (lastOK_wordS _ "engineer" 'r' rfl (by exact ⟨rfl, rfl⟩) (by exact ⟨rfl, rfl⟩))
        (lastOK_word _ "staff" 'f' rfl (by exact ⟨rfl, rfl⟩))))

theorem urgency_pat1_headOK : HeadOK keepChar urgency_pat1 := by
  refine headOK_cat_left _ ?_ (by decide)
  exact headOK_alt (headOK_word _ "urgent" 'u' rfl (by exact ⟨rfl, rfl⟩))
    (headOK_alt (headOK_word _ "asap" 'a' rfl (by exact ⟨rfl, rfl⟩))
      (headOK_alt (headOK_word _ "immediately" 'i' rfl (by exact ⟨rfl, rfl⟩))
        (headOK_alt (headOK_word _ "quickly" 'q' rfl (by exact ⟨rfl, rfl⟩))
          (headOK_word _ "soon" 's' rfl (by exact ⟨rfl, rfl⟩)))))

theorem urgency_pat1_lastOK : LastOK keepChar urgency_pat1 := by
  refine lastOK_cat_right _ ?_ (by decide)
  refine lastOK_cat_right _ ?_ (by decide)
  exact lastOK_alt (lastOK_word _ "need" 'd' rfl (by exact ⟨rfl, rfl⟩))
    (lastOK_alt (lastOK_word _ "require" 'e' rfl (by exact ⟨rfl, rfl⟩))
      (lastOK_word _ "looking" 'g' rfl (by exact ⟨rfl, rfl⟩)))

/-- A match derivation for the first growth pattern at the position of
`"expanding our engineering team"`: the engine matches
`expanding our engineer` (length 22), via the optional `\w+ ` consuming
`our ` and `engineers?` matching the prefix `engineer` of `engineering`. -/
theorem growth_pat1_match (t : List Char) :
    MatchFrom 60 growth_pat1 (cs "expanding our engineering team" ++ t) (22, none) := by
  have h_exp : MatchFrom 10 (word "expanding")
      (cs "expanding our engineering team" ++ t) (9, none) :=
    matchFrom_strRgx (cs "expanding") (cs " our engineering team" ++ t)
  have hA := matchFrom_alt_right (word "hiring")
    (matchFrom_alt_right (word "recruiting")
      (matchFrom_alt_right (word "adding") h_exp))
  have hwo : MatchFrom 1 wRe (cs "our engineering team" ++ t) (1, none) :=
    matchFrom_cls isWordChar 'o' (cs "ur engineering team" ++ t) rfl
  have h_r : MatchFrom 1 wRe (cs "r engineering team" ++ t) (1, none) :=
    matchFrom_cls isWordChar 'r' (cs " engineering team" ++ t) rfl
  have h_u : MatchFrom 1 wRe (cs "ur engineering team" ++ t) (1, none) :=
    matchFrom_cls isWordChar 'u' (cs "r engineering team" ++ t) rfl
  have h_nil : MatchFrom 1 (.star wRe) (cs " engineering team" ++ t) (0, none) :=
    matchFrom_star_nil wRe _
  have h_star_r := matchFrom_star_cons h_r (by decide) h_nil
  have h_star_ur := matchFrom_star_cons h_u (by decide) h_star_r
  have h_plus := matchFrom_cat hwo h_star_ur
  have h_sp2 : MatchFrom 1 (.lit ' ')
      ((cs "our engineering team" ++ t).drop (1 + (1 + (1 + 0)))) (1, none) :=
    matchFrom_lit ' ' (cs "engineering team" ++ t)
  have h_inner := matchFrom_cat h_plus h_sp2
  have h_O := matchFrom_alt_left Rgx.eps h_inner
  have h_estr : MatchFrom 9 (word "engineer") (cs "engineering team" ++ t) (8, none) :=
    matchFrom_strRgx (cs "engineer") (cs "ing team" ++ t)
  have h_opts : MatchFrom 2 (optR (.lit 's'))
      ((cs "engineering team" ++ t).drop 8) (0, none) :=
    matchFrom_alt_right (.lit 's') (matchFrom_eps (cs "ing team" ++ t))
  have h_eng := matchFrom_cat h_estr h_opts
  have h_E := matchFrom_alt_right (word "team")
    (matchFrom_alt_right (wordS "developer")
      (matchFrom_alt_left (word "staff") h_eng))
  have h_E' : MatchFrom (9 + 1 + 1 + 1 + 1)
      (altL [word "team", wordS "developer", wordS "engineer", word "staff"])
      ((cs "our engineering team" ++ t).drop ((1 + (1 + (1 + 0))) + 1)) (8, none) :=
    matchFrom_mono h_E (by decide)
  have h_OE := matchFrom_cat h_O h_E'
  have h_sp : MatchFrom 1 (.lit ' ')
      ((cs "expanding our engineering team" ++ t).drop 9) (1, none) :=
    matchFrom_lit ' ' (cs "our engineering team" ++ t)
  have h_OE' : MatchFrom (max (max (max 1 (max 1 2) + 1) 1 + 1 + 1) 13 + 1)
      (.cat (optR (.cat (plusR wRe) (.lit ' ')))
        (altL [word "team", wordS "developer", wordS "engineer", word "staff"]))
      (((cs "expanding our engineering team" ++ t).drop 9).drop 1)
      ((1 + (1 + (1 + 0)) + 1) + (8 + 0), none) :=
    matchFrom_mono h_OE (by decide)
  have h_X := matchFrom_cat h_sp h_OE'
  have h_top := matchFrom_cat hA h_X
  exact matchFrom_mono h_top (by decide)

/-- A match derivation for the first urgency pattern at the position of
`"urgent need for new servers"`: `urgent need` (length 11). -/
theorem urgency_pat1_match (t : List Char) :
    MatchFrom 60 urgency_pat1 (cs "urgent need for new servers" ++ t) (11, none) := by
  have h_urg : MatchFrom 7 (word "urgent")
      (cs "urgent need for new servers" ++ t) (6, none) :=
    matchFrom_strRgx (cs "urgent") (cs " need for new servers" ++ t)
  have hA5 := matchFrom_alt_left
    (altL [word "asap", word "immediately", word "quickly", word "soon"]) h_urg
  have h_need : MatchFrom 5 (word "need") (cs "need for new servers" ++ t) (4, none) :=
    matchFrom_strRgx (cs "need") (cs " for new servers" ++ t)
  have hE3 := matchFrom_alt_left (altL [word "require", word "looking"]) h_need
  have h_sp : MatchFrom 1 (.lit ' ')
      ((cs "urgent need for new servers" ++ t).drop 6) (1, none) :=
    matchFrom_lit ' ' (cs "need for new servers" ++ t)
  have hE3' : MatchFrom 6
      (altL [word "need", word "require", word "looking"])
      (((cs "urgent need for new servers" ++ t).drop 6).drop 1) (4, none) :=
    matchFrom_mono hE3 (by decide)
  have h_in := matchFrom_cat h_sp hE3'
  have h_top := matchFrom_cat hA5 h_in
  exact matchFrom_mono h_top (by decide)

theorem growth_pat1_matchRes_ne (t : List Char) :
    matchRes (rgxFuel growth_pat1 (cs "expanding our engineering team" ++ t)) growth_pat1
      (cs "expanding our engineering team" ++ t) ≠ [] := by
  have hb : 60 ≤ rgxFuel growth_pat1 (cs "expanding our engineering team" ++ t) := by
    unfold rgxFuel
    have h2 : (cs "expanding our engineering team" ++ t).length = 30 + t.length := by
      rw [List.length_append]
      rfl
    rw [h2]
    calc 60 ≤ 31 * (growth_pat1.size + 1) := by decide
      _ ≤ (30 + t.length + 1) * (growth_pat1.size + 1) :=
        Nat.mul_le_mul_right _ (by omega)
  exact List.ne_nil_of_mem (growth_pat1_match t _ hb)

theorem urgency_pat1_matchRes_ne (t : List Char) :
    matchRes (rgxFuel urgency_pat1 (cs "urgent need for new servers" ++ t)) urgency_pat1
      (cs "urgent need for new servers" ++ t) ≠ [] := by
  have hb : 60 ≤ rgxFuel urgency_pat1 (cs "urgent need for new servers" ++ t) := by
    unfold rgxFuel
    have h2 : (cs "urgent need for new servers" ++ t).length = 27 + t.length := by
      rw [List.length_append]
      rfl
    rw [h2]
    calc 60 ≤ 28 * (urgency_pat1.size + 1) := by decide
      _ ≤ (27 + t.length + 1) * (urgency_pat1.size + 1) :=
        Nat.mul_le_mul_right _ (by omega)
  exact List.ne_nil_of_mem (urgency_pat1_match t _ hb)

/-- Any profile with a growth indicator and an urgency signal scores at
least 8 + 15 = 23. -/
theorem score_ge (hi : HardwareIntelligence) (hg : hi.growth_indicators ≠ [])
    (hu : hi.urgency_signals ≠ []) : 23 ≤ calculate_hardware_readiness_score hi := by
  rw [score_eq]
  have hgl : 1 ≤ hi.growth_indicators.length := List.length_pos.mpr hg
  have hul : 1 ≤ hi.urgency_signals.length := List.length_pos.mpr hu
  have h1 : 8 ≤ min 25 (8 * hi.growth_indicators.length) :=
    Nat.le_min.mpr ⟨by omega, by omega⟩
  have h2 : 15 ≤ min 15 (15 * hi.urgency_signals.length) :=
    Nat.le_min.mpr ⟨by omega, by omega⟩
  exact Nat.le_min.mpr ⟨by omega, by omega⟩

/-- C4: every text containing both `"we are expanding our engineering team"`
and `"urgent need for new servers"` yields at least one growth indicator
(first growth pattern matches `expanding our engineer`), at least one
urgency signal (first urgency pattern matches `urgent need`), and a hardware
readiness score of at least 23 (8 for growth + 15 for capped urgency). -/
theorem growth_urgency_scenario (text : List Char)
    (hg : cs "we are expanding our engineering team" <:+: text)
    (hu : cs "urgent need for new servers" <:+: text) :
    (extract_hardware_intelligence emptyHI text).growth_indicators ≠ [] ∧
    (extract_hardware_intelligence emptyHI text).urgency_signals ≠ [] ∧
    23 ≤ calculate_hardware_readiness_score (extract_hardware_intelligence emptyHI text) := by
  obtain ⟨u₁, v₁, he₁⟩ := hg
  obtain ⟨u₂, v₂, he₂⟩ := hu
  have hshape₁ : text.map Char.toLower =
      (u₁.map Char.toLower ++ cs "we are ") ++
      (cs "expanding our engineering team" ++ v₁.map Char.toLower) := by
    rw [← he₁]
    simp only [List.map_append]
    rw [show (cs "we are expanding our engineering team").map Char.toLower =
        cs "we are " ++ cs "expanding our engineering team" from by decide]
    simp [List.append_assoc]
  have hd₁ : (text.map Char.toLower).drop
      ((u₁.map Char.toLower ++ cs "we are ").length) =
      cs "expanding our engineering team" ++ v₁.map Char.toLower := by
    rw [hshape₁]
    exact List.drop_left _ _
  have hfind₁ : pyFindall growth_pat1 (text.map Char.toLower) ≠ [] := by
    unfold pyFindall
    refine pyFindallAux_ne_nil _ growth_pat1 (text.map Char.toLower)
      ((u₁.map Char.toLower ++ cs "we are ").length) (by omega) ?_
    rw [hd₁]
    exact growth_pat1_matchRes_ne (v₁.map Char.toLower)
  have hgood₁ : ∀ m ∈ pyFindall growth_pat1 (text.map Char.toLower),
      5 < (cleanMatch m).length := by
    intro m hm
    obtain ⟨hcm, hl⟩ := pyFindall_elem_good growth_pat1 rfl (by decide)
      growth_pat1_headOK growth_pat1_lastOK _ m hm
    rw [hcm]
    exact hl
  have hg_ne : (extract_hardware_intelligence emptyHI text).growth_indicators ≠ [] := by
    show extract_pattern_matches (text.map Char.toLower) growth_patterns ≠ []
    exact extract_pattern_matches_ne_nil _ growth_pat1 _
      (processMatches_ne_nil _ hfind₁ hgood₁)
  have hshape₂ : text.map Char.toLower =
      (u₂.map Char.toLower) ++
      (cs "urgent need for new servers" ++ v₂.map Char.toLower) := by
    rw [← he₂]
    simp only [List.map_append]
    rw [show (cs "urgent need for new servers").map Char.toLower =
        cs "urgent need for new servers" from by decide]
    simp [List.append_assoc]
  have hd₂ : (text.map Char.toLower).drop ((u₂.map Char.toLower).length) =
      cs "urgent need for new servers" ++ v₂.map Char.toLower := by
    rw [hshape₂]
    exact List.drop_left _ _
  have hfind₂ : pyFindall urgency_pat1 (text.map Char.toLower) ≠ [] := by
    unfold pyFindall
    refine pyFindallAux_ne_nil _ urgency_pat1 (text.map Char.toLower)
      ((u₂.map Char.toLower).length) (by omega) ?_
    rw [hd₂]
    exact urgency_pat1_matchRes_ne (v₂.map Char.toLower)
  have hgood₂ : ∀ m ∈ pyFindall urgency_pat1 (text.map Char.toLower),
      5 < (cleanMatch m).length := by
    intro m hm
    obtain ⟨hcm, hl⟩ := pyFindall_elem_good urgency_pat1 rfl (by decide)
      urgency_pat1_headOK urgency_pat1_lastOK _ m hm
    rw [hcm]
    exact hl
  have hu_ne : (extract_hardware_intelligence emptyHI text).urgency_signals ≠ [] := by
    show extract_pattern_matches (text.map Char.toLower) urgency_patterns ≠ []
    exact extract_pattern_matches_ne_nil _ urgency_pat1 _
      (processMatches_ne_nil _ hfind₂ hgood₂)
  exact ⟨hg_ne, hu_ne, score_ge _ hg_ne hu_ne⟩

/-- C4 witness: the scenario instantiated on the concrete text
`"we are expanding our engineering team urgent need for new servers"`. -/
theorem growth_urgency_scenario_witness :
    23 ≤ calculate_hardware_readiness_score (extract_hardware_intelligence emptyHI
      (cs "we are expanding our engineering team urgent need for new servers")) :=
  (growth_urgency_scenario
    (cs "we are expanding our engineering team urgent need for new servers")
    ⟨[], cs " urgent need for new servers", rfl⟩
    ⟨cs "we are expanding our engineering team ", [], rfl⟩).2.2
